import Mathlib

/-!
Verification of the batchskl skip list (src/batchskl/skl.go).

The development is a shallow embedding of the Go source:

* the arena (`Arena`, `Arena.alloc`, `newNodeArena`) models the byte-level
  allocator `Skiplist.alloc` / `Skiplist.newNode` (sizes and offsets; the
  `uint32` arithmetic of the source is modelled with explicit `% 2^32`);
* `probabilities` / `randomHeight` model the precomputed height table and
  the height draw (the single `rand.Uint32()` draw is the `rnd` argument);
* the record-level model (`SklNode`, `Skiplist`, `findSpliceForLevel`,
  `newSkiplist`, `insert`) represents the arena as an offset-indexed record
  store, as the node bytes are only ever accessed through the typed
  accessors `getKey`/`getKeyPrefix`/`getNext`/`getPrev`/`setNext`/`setPrev`
  of the source.  Offsets into the node store are list indices.

The Go identifier `prefix` is rendered `pfx` throughout.
-/

namespace Batchskl

/-- constant maxHeight of the source (skl.go line 66). -/
def maxHeight : ℕ := 20

/-- size in bytes of the links struct (two uint32 fields), the value of
the Go expression unsafe.Sizeof(links\x7b\x7d). -/
def linksSize : ℕ := 8

/-- size in bytes of a full-height node: key uint32 at offset 0, 4 bytes of
alignment padding, the 8-byte KeyPrefix at offset 8, and 20 links of 8 bytes
each, the value of the Go expression unsafe.Sizeof(node\x7b\x7d) = 176. -/
def maxNodeSize : ℕ := 176

/-- size in bytes of a KeyPrefix (uint64). -/
def keyPfxSize : ℕ := 8

/-- modulus of Go uint32 arithmetic. -/
def U32 : ℕ := 2 ^ 32

/-! ## Arena (byte-level model of the `nodes []byte` slice)

A Go slice `s.nodes` has a backing array (`buf`, whose length is the
capacity) and a length `len`. -/

/-- byte-level model of the `nodes []byte` slice of the skiplist: `buf` is
the backing array (its length is the Go capacity `cap`), `len` the slice
length. -/
structure Arena where
  buf : List ℕ
  len : ℕ
  deriving Repr, DecidableEq

/-- Arena.read models reading the byte stored at an offset of the backing
buffer. -/
def Arena.read (a : Arena) (i : ℕ) : ℕ := a.buf.getD i 0

/-- Arena.alloc is `func (s *Skiplist) alloc(size uint32) uint32`
(skl.go lines 175-190): the offset returned is the current length; if the
capacity does not suffice, a new backing buffer of twice the capacity (or of
the needed size if doubling is insufficient) is allocated and the current
contents copied over; finally the length is extended.  `uint32` conversions
of the source are the `% U32` reductions. -/
def Arena.alloc (a : Arena) (size : ℕ) : ℕ × Arena :=
  let offset := a.len % U32
  let newSize := (offset + size) % U32
  if a.buf.length < newSize then
    let allocSize0 := (a.buf.length * 2) % U32
    let allocSize := if allocSize0 < newSize then newSize else allocSize0
    let buf2 := a.buf.take a.len ++ List.replicate (allocSize - a.len) 0
    (offset, { buf := buf2, len := newSize })
  else
    (offset, { buf := a.buf, len := newSize })

/-- newNodeSize height is the byte size allocated by `newNode` for a node of
the given height: maxNodeSize - (maxHeight - height) * linksSize
(skl.go lines 166-167). -/
def newNodeSize (height : ℕ) : ℕ := maxNodeSize - (maxHeight - height) * linksSize

/-- newNodeArena models `func (s *Skiplist) newNode(height, key uint32,
prefix KeyPrefix) uint32` (skl.go lines 161-173) at the byte level: the
panic on `height < 1 || height > maxHeight` is modelled as `none`; otherwise
the node's bytes are allocated with `alloc`.  The field writes `nd.key = key`
and `nd.prefix = prefix` are modelled in the record-level skiplist below. -/
def newNodeArena (a : Arena) (height : ℕ) : Option (ℕ × Arena) :=
  if height < 1 ∨ maxHeight < height then none
  else some (a.alloc (newNodeSize height))

/-- mkArena models lines 132-140 of NewSkiplist: an initial capacity hint
below 256 is raised to 256 (the Go argument is a signed int, hence `ℤ`), and
`make([]byte, 0, initBufSize)` produces a zeroed backing buffer of that
capacity with length 0. -/
def mkArena (initBufSize : ℤ) : Arena :=
  let cap : ℤ := if initBufSize < 256 then 256 else initBufSize
  { buf := List.replicate cap.toNat 0, len := 0 }

/-! ## Height distribution (skl.go lines 114-129, 196-203) -/

/-- probabilities is the table filled in by the package `init` function:
`probabilities[i] = uint32(float64(math.MaxUint32) * p)` with `p = (1/e)^i`
accumulated by repeated IEEE-754 double multiplication with
`pValue = 1/math.E` and truncated to `uint32`.  The 20 entries below are the
values that computation produces (each of them also equals
⌊(2^32－1)·e^(－i)⌋, which is proved in the C4 theorem below). -/
def probabilities : List ℕ :=
  [4294967295, 1580030168, 581260615, 213833830, 78665070,
   28939261, 10646159, 3916503, 1440801, 530041,
   194991, 71733, 26389, 9708, 3571,
   1313, 483, 177, 65, 24]

/-- randomHeightAux is the loop of `randomHeight` (skl.go lines 198-201):
starting from `h`, increment while `h < maxHeight && rnd <= probabilities[h]`.
The fuel argument only bounds the recursion: starting from h = 1,
`maxHeight` iterations always suffice because the condition forces
h < maxHeight. -/
def randomHeightAux (rnd : ℕ) : ℕ → ℕ → ℕ
  | 0, h => h
  | fuel + 1, h =>
    if h < maxHeight ∧ rnd ≤ probabilities.getD h 0 then
      randomHeightAux rnd fuel (h + 1)
    else
      h

/-- randomHeight models `func (s *Skiplist) randomHeight() uint32`
(skl.go lines 196-203); the single uniform draw `rnd := rand.Uint32()` is
passed as the argument. -/
def randomHeight (rnd : ℕ) : ℕ := randomHeightAux rnd maxHeight 1

/-! ## Record-level model of nodes and the skip list

Following the layout of skl.go, the arena bytes holding the nodes are
represented as an offset-indexed record store: node offsets are indices into
a list of `SklNode` records, and the typed accessors below are the source's
`getKey`/`getKeyPrefix`/`getNext`/`getPrev`/`setNext`/`setPrev`
(skl.go lines 243-265), which are the only ways the source ever touches node
memory. -/

/-- Links is the `links` struct (skl.go lines 74-77). -/
structure Links where
  next : ℕ
  prev : ℕ
  deriving Repr, DecidableEq, Inhabited

/-- SklNode is the `node` struct (skl.go lines 81-96): the key offset into
external storage, the cached 8-byte key prefix (field `pfx` here), and the
link tower, whose length is the node's height (the truncated allocation of
the source means exactly `height` link slots exist). -/
structure SklNode where
  key : ℕ
  pfx : ℕ
  links : List Links
  deriving Repr, DecidableEq, Inhabited

/-- StorageModel is the `Storage` interface (skl.go lines 99-103): keys are
byte lists, `get` returns the key bytes at a storage offset, `pfxOf` is
`Prefix`, and `cmp a o` is `Compare(a, o)` comparing key bytes `a` against
the key stored at offset `o`. -/
structure StorageModel where
  get : ℕ → List ℕ
  pfxOf : List ℕ → ℕ
  cmp : List ℕ → ℕ → ℤ

/-- Skiplist is the `Skiplist` struct (skl.go lines 106-112) with the
`nodes []byte` arena represented as the record store `nodes`. -/
structure Skiplist where
  storage : StorageModel
  nodes : List SklNode
  head : ℕ
  tail : ℕ
  height : ℕ

/-- Skiplist.nodeAt models `func (s *Skiplist) node(offset uint32) *node`
(skl.go lines 192-194). -/
def Skiplist.nodeAt (s : Skiplist) (nd : ℕ) : SklNode := s.nodes.getD nd default

/-- Skiplist.getKey (skl.go lines 243-245). -/
def Skiplist.getKey (s : Skiplist) (nd : ℕ) : ℕ := (s.nodeAt nd).key

/-- Skiplist.getKeyPfx is `getKeyPrefix` (skl.go lines 247-249). -/
def Skiplist.getKeyPfx (s : Skiplist) (nd : ℕ) : ℕ := (s.nodeAt nd).pfx

/-- Skiplist.getNext (skl.go lines 251-253). -/
def Skiplist.getNext (s : Skiplist) (nd h : ℕ) : ℕ :=
  ((s.nodeAt nd).links.getD h default).next

/-- Skiplist.getPrev (skl.go lines 255-257). -/
def Skiplist.getPrev (s : Skiplist) (nd h : ℕ) : ℕ :=
  ((s.nodeAt nd).links.getD h default).prev

/-- Skiplist.setNext (skl.go lines 259-261). -/
def Skiplist.setNext (s : Skiplist) (nd h nxt : ℕ) : Skiplist :=
  let n := s.nodeAt nd
  { s with nodes :=
      s.nodes.set nd { n with links := n.links.set h { n.links.getD h default with next := nxt } } }

/-- Skiplist.setPrev (skl.go lines 263-265). -/
def Skiplist.setPrev (s : Skiplist) (nd h prv : ℕ) : Skiplist :=
  let n := s.nodeAt nd
  { s with nodes :=
      s.nodes.set nd { n with links := n.links.set h { n.links.getD h default with prev := prv } } }

/-- chainFrom s level fuel nd lists the nodes visited from `nd` by following
the level-`level` next links until the tail sentinel is reached (or the fuel
runs out; every walk of the source is finite because the list is finite and
acyclic, which the invariants below make precise). -/
def chainFrom (s : Skiplist) (level : ℕ) : ℕ → ℕ → List ℕ
  | 0, nd => [nd]
  | fuel + 1, nd =>
    if nd = s.tail then [nd] else nd :: chainFrom s level fuel (s.getNext nd level)

/-- levelList s l is the full walk of level `l` starting at the head
sentinel, with fuel that suffices for any chain of distinct nodes. -/
def levelList (s : Skiplist) (l : ℕ) : List ℕ :=
  chainFrom s l (s.nodes.length + 1) s.head

/-- interior s l is the walk of level `l` with the head and tail sentinels
removed: the live nodes linked at level `l`, in chain order. -/
def interior (s : Skiplist) (l : ℕ) : List ℕ :=
  ((levelList s l).drop 1).dropLast

/-- findSpliceForLevelRec is the loop of `findSpliceForLevel`
(skl.go lines 205-241), with fuel making the recursion structural.  Besides
the result `(prev, next, found)` it returns the list of nodes on which
`s.storage.Compare` was invoked during the walk (the trace is part of the
model of the source's behaviour: `Compare` is called exactly once per
iteration whose candidate is not the tail and whose cached prefix equals the
target prefix). -/
def findSpliceForLevelRec (s : Skiplist) (key : List ℕ) (kpfx level : ℕ) :
    ℕ → ℕ → (ℕ × ℕ × Bool) × List ℕ
  | 0, prev => ((prev, s.getNext prev level, false), [])
  | fuel + 1, prev =>
    let next := s.getNext prev level
    if next = s.tail then
      ((prev, next, false), [])
    else
      let nextPfx := s.getKeyPfx next
      if kpfx < nextPfx then
        ((prev, next, false), [])
      else if kpfx = nextPfx then
        let c := s.storage.cmp key (s.getKey next)
        if c = 0 then ((prev, next, true), [next])
        else if c < 0 then ((prev, next, false), [next])
        else
          let r := findSpliceForLevelRec s key kpfx level fuel next
          (r.1, next :: r.2)
      else
        findSpliceForLevelRec s key kpfx level fuel next

/-- findSpliceForLevel is `func (s *Skiplist) findSpliceForLevel(key []byte,
prefix KeyPrefix, level, start uint32) (prev, next uint32, found bool)`
(skl.go lines 205-241). -/
def findSpliceForLevel (s : Skiplist) (key : List ℕ) (kpfx level start : ℕ) :
    ℕ × ℕ × Bool :=
  (findSpliceForLevelRec s key kpfx level (s.nodes.length + 1) start).1

/-- findSpliceCmpCalls is the trace of nodes on which `Storage.Compare` is
invoked during a `findSpliceForLevel` call. -/
def findSpliceCmpCalls (s : Skiplist) (key : List ℕ) (kpfx level start : ℕ) :
    List ℕ :=
  (findSpliceForLevelRec s key kpfx level (s.nodes.length + 1) start).2

/-- newNodeRec is the record-level `newNode` (skl.go lines 161-173): the
freshly allocated offset is the next index of the record store, and the
truncated allocation gives the node exactly `height` link slots (zeroed, as
arena memory is).  The height precondition (the panic of lines 162-164) is
modelled byte-exactly in `newNodeArena`; every call site below passes
1 ≤ height ≤ maxHeight. -/
def newNodeRec (s : Skiplist) (height key kpfx : ℕ) : ℕ × Skiplist :=
  (s.nodes.length,
   { s with nodes := s.nodes ++ [⟨key, kpfx, List.replicate height default⟩] })

/-- newSkiplist is the record-level `NewSkiplist` (skl.go lines 131-153):
allocate the head and tail sentinels at full height and link them together
at every level.  The initial buffer sizing of lines 132-140 is modelled in
`mkArena`. -/
def newSkiplist (st : StorageModel) : Skiplist :=
  let s0 : Skiplist := { storage := st, nodes := [], head := 0, tail := 0, height := 1 }
  let r1 := newNodeRec s0 maxHeight 0 0
  let r2 := newNodeRec r1.2 maxHeight 0 0
  let s3 := { r2.2 with head := r1.1, tail := r2.1 }
  (List.range maxHeight).foldl
    (fun s i => (s.setNext s.head i s.tail).setPrev s.tail i s.head) s3

/-- InsertError is the insertion failure: ErrRecordExists (skl.go line 72). -/
inductive InsertError where
  | recordExists
  deriving Repr, DecidableEq

/-- findSplicesDown models the descending search of the insertion algorithm.
Modelled from the spec: the `Insert` operation itself is not part of
src/batchskl/skl.go (only its primitive `findSpliceForLevel` is), so this
follows the spec's words (section 4.6): starting at the top active level and
descending to level 0, run splice search at each level, resuming from the
predecessor found at the level above; if any level's search reports a match,
abort immediately.  The returned list holds the (predecessor, successor)
pair for each level, the pair for level `l` at index `l`. -/
def findSplicesDown (s : Skiplist) (key : List ℕ) (kpfx : ℕ) :
    ℕ → ℕ → Option (List (ℕ × ℕ))
  | 0, _ => some []
  | lvl + 1, start =>
    let r := findSpliceForLevel s key kpfx lvl start
    if r.2.2 then none
    else
      match findSplicesDown s key kpfx lvl r.1 with
      | none => none
      | some spl => some (spl ++ [(r.1, r.2.1)])

/-- spliceOne links the new node `nd` between `prv` and `nxt` at one level.
Modelled from the spec (section 4.6): set the new node's own next/prev for
that level, update predecessor.next, update successor.prev. -/
def spliceOne (s : Skiplist) (nd prv nxt level : ℕ) : Skiplist :=
  (((s.setNext nd level nxt).setPrev nd level prv).setNext prv level nd).setPrev
    nxt level nd

/-- spliceLevels splices the new node at levels 0 .. h-1, using the
predecessor/successor pair that the descending search found per level. -/
def spliceLevels (s : Skiplist) (nd : ℕ) (spl : List (ℕ × ℕ)) (h : ℕ) :
    Skiplist :=
  (List.range h).foldl
    (fun s l => spliceOne s nd (spl.getD l default).1 (spl.getD l default).2 l) s

/-- insert models the insertion of the key stored at external offset
`keyOff`.  Modelled from the spec (sections 4.6 and 6, with the spec's
recommended resolution of its open question: the caller supplies the
already-written external offset): compute the key's prefix via Storage, draw
a random height (the uniform draw is the `rnd` argument), raise the active
height if needed, run the descending splice search, report ErrRecordExists
on a match without mutating any link, otherwise allocate the node once and
splice it at levels 0 .. h-1. -/
def insert (s0 : Skiplist) (keyOff rnd : ℕ) : Skiplist × Option InsertError :=
  let key := s0.storage.get keyOff
  let kpfx := s0.storage.pfxOf key
  let h := randomHeight rnd
  let s := if s0.height < h then { s0 with height := h } else s0
  match findSplicesDown s key kpfx s.height s.head with
  | none => (s, some InsertError.recordExists)
  | some spl =>
    let r := newNodeRec s h keyOff kpfx
    (spliceLevels r.2 r.1 spl h, none)

/-- insertAll folds a sequence of insertions (each with its own uniform
draw) over a skiplist, keeping the updated state whether or not the
insertion succeeded. -/
def insertAll (s : Skiplist) (ops : List (ℕ × ℕ)) : Skiplist :=
  ops.foldl (fun s op => (insert s op.1 op.2).1) s

/-! ## Byte ordering and the storage contract -/

/-- lexCmp is raw byte ordering, the comparator semantics the spec fixes for
Storage (`bytes.Compare` of Go): negative, zero, positive for less, equal,
greater. -/
def lexCmp : List ℕ → List ℕ → ℤ
  | [], [] => 0
  | [], _ :: _ => -1
  | _ :: _, [] => 1
  | a :: as, b :: bs => if a < b then -1 else if b < a then 1 else lexCmp as bs

/-- StorageModel.Lawful states the Storage contract of the spec (sections
4.1 and 6): `Compare` decides raw byte ordering against the stored key, and
the prefix projection is order-compatible, prefix a < prefix b implying
a < b. -/
def StorageModel.Lawful (st : StorageModel) : Prop :=
  (∀ a o, (st.cmp a o).sign = lexCmp a (st.get o)) ∧
  (∀ a b, st.pfxOf a < st.pfxOf b → lexCmp a b = -1)

/-- keyAt s nd is the byte content of the key indexed by node `nd`. -/
def keyAt (s : Skiplist) (nd : ℕ) : List ℕ := s.storage.get (s.getKey nd)

/-! ## Characterisation predicates for the splice search -/

/-- advanceAt decides whether the loop of `findSpliceForLevel` moves past a
candidate next node: yes exactly when the node is not the tail and either
its cached prefix is strictly below the target prefix, or the prefixes are
equal and `Compare` reports the target strictly greater. -/
def advanceAt (s : Skiplist) (key : List ℕ) (kpfx nd : ℕ) : Bool :=
  if nd = s.tail then false
  else if kpfx < s.getKeyPfx nd then false
  else if kpfx = s.getKeyPfx nd then decide (0 < s.storage.cmp key (s.getKey nd))
  else true

/-- foundAt decides whether stopping at a candidate next node reports a
match: the node is not the tail, the prefixes are equal, and `Compare`
reports equality. -/
def foundAt (s : Skiplist) (key : List ℕ) (kpfx nd : ℕ) : Bool :=
  decide (nd ≠ s.tail) && decide (kpfx = s.getKeyPfx nd) &&
    decide (s.storage.cmp key (s.getKey nd) = 0)

/-! ## State-threaded splice search

The Go method `findSpliceForLevel` takes the skiplist by pointer, so in
principle it could write to it.  To express that it does not, the variant
below threads the `Skiplist` state through every node access and `Compare`
call exactly as the source performs them, and the frame theorem proves the
state emerges unchanged, with the same result as the pure model. -/

/-- readNext threads a `getNext` access through the state. -/
def readNext (nd level : ℕ) (s : Skiplist) : ℕ × Skiplist := (s.getNext nd level, s)

/-- readKeyPfx threads a `getKeyPrefix` access through the state. -/
def readKeyPfx (nd : ℕ) (s : Skiplist) : ℕ × Skiplist := (s.getKeyPfx nd, s)

/-- readKey threads a `getKey` access through the state. -/
def readKey (nd : ℕ) (s : Skiplist) : ℕ × Skiplist := (s.getKey nd, s)

/-- readCmp threads a `Storage.Compare` call through the state (the
interface is external and assumed side-effect-free on the list). -/
def readCmp (key : List ℕ) (o : ℕ) (s : Skiplist) : ℤ × Skiplist :=
  (s.storage.cmp key o, s)

/-- findSpliceForLevelStRec is the loop of `findSpliceForLevel`
(skl.go lines 205-241) with the receiver state threaded through every
access, in the order the source performs them. -/
def findSpliceForLevelStRec (key : List ℕ) (kpfx level : ℕ) :
    ℕ → ℕ → Skiplist → (ℕ × ℕ × Bool) × Skiplist
  | 0, prev, s =>
    let r := readNext prev level s
    ((prev, r.1, false), r.2)
  | fuel + 1, prev, s0 =>
    let r := readNext prev level s0
    let next := r.1
    let s := r.2
    if next = s.tail then ((prev, next, false), s)
    else
      let rp := readKeyPfx next s
      let nextPfx := rp.1
      let s1 := rp.2
      if kpfx < nextPfx then ((prev, next, false), s1)
      else if kpfx = nextPfx then
        let rk := readKey next s1
        let rc := readCmp key rk.1 rk.2
        let c := rc.1
        let s2 := rc.2
        if c = 0 then ((prev, next, true), s2)
        else if c < 0 then ((prev, next, false), s2)
        else findSpliceForLevelStRec key kpfx level fuel next s2
      else findSpliceForLevelStRec key kpfx level fuel next s1

/-- findSpliceForLevelSt runs the splice search with the receiver state
threaded through every access. -/
def findSpliceForLevelSt (s : Skiplist) (key : List ℕ) (kpfx level start : ℕ) :
    (ℕ × ℕ × Bool) × Skiplist :=
  findSpliceForLevelStRec key kpfx level (s.nodes.length + 1) start s

/-! ## Invariants -/

/-- StructOK is the structural invariant of the list: the walk of every
level is head, then the live nodes of that level without repetition, then
tail; live nodes are in-range non-sentinel offsets tall enough for their
level; levels at or above the active height hold no live node; and the live
nodes of a level are among the live nodes of the level below. -/
structure StructOK (s : Skiplist) : Prop where
  head_eq : s.head = 0
  tail_eq : s.tail = 1
  two_le : 2 ≤ s.nodes.length
  height_pos : 1 ≤ s.height
  height_le : s.height ≤ maxHeight
  head_links : (s.nodeAt s.head).links.length = maxHeight
  tail_links : (s.nodeAt s.tail).links.length = maxHeight
  shape : ∀ l < maxHeight, levelList s l = s.head :: (interior s l ++ [s.tail])
  nodup : ∀ l < maxHeight, (interior s l).Nodup
  mem_bound : ∀ l < maxHeight, ∀ nd ∈ interior s l,
    2 ≤ nd ∧ nd < s.nodes.length ∧ l < (s.nodeAt nd).links.length
  empty_above : ∀ l < maxHeight, s.height ≤ l → interior s l = []
  nested : ∀ l, l + 1 < maxHeight → ∀ nd ∈ interior s (l + 1), nd ∈ interior s l

/-- SortedOK is the ordering invariant: at every level the live nodes are
strictly ascending in raw byte order of their keys, and every live node
caches the prefix that Storage assigns to its key. -/
structure SortedOK (s : Skiplist) : Prop where
  sorted : ∀ l < maxHeight,
    (interior s l).Pairwise (fun a b => lexCmp (keyAt s a) (keyAt s b) = -1)
  pfx_ok : ∀ nd ∈ interior s 0, (s.nodeAt nd).pfx = s.storage.pfxOf (keyAt s nd)

/-! ## Concrete fixtures used by witnesses -/

/-- testStorage is a small concrete storage: the key stored at offset `o`
is the one-byte list [o], its prefix is 0, and Compare decides raw byte
ordering. -/
def testStorage : StorageModel :=
  { get := fun o => [o], pfxOf := fun _ => 0, cmp := fun a o => lexCmp a [o] }

/-- testList0 is an empty skiplist over the test storage. -/
def testList0 : Skiplist := newSkiplist testStorage

/-- testList3 holds the keys [3], [5], [8] (inserted out of order, at
heights 1, 2 and 20 as the three draws realise). -/
def testList3 : Skiplist :=
  insertAll testList0 [(5, 4294967295), (3, 1580030168), (8, 0)]

/-! # Theorems

First a few list access helpers, then the claims. -/

theorem getD_take_of_lt (l : List α) (n i : ℕ) (d : α) (h : i < n) :
    (l.take n).getD i d = l.getD i d := by
  simp [List.getD, List.getElem?_take_of_lt h]

theorem getD_set_self (l : List α) (i : ℕ) (a d : α) (h : i < l.length) :
    (l.set i a).getD i d = a := by
  simp [List.getD, List.getElem?_set_self', List.getElem?_eq_getElem h]

theorem getD_set_ne (l : List α) (i j : ℕ) (a d : α) (h : i ≠ j) :
    (l.set i a).getD j d = l.getD j d := by
  simp [List.getD, List.getElem?_set_ne h]

/-! ## Order facts about raw byte comparison -/

theorem lexCmp_self : ∀ a : List ℕ, lexCmp a a = 0 := by
  intro a
  induction a with
  | nil => rfl
  | cons x xs ih => simp [lexCmp, ih]

theorem lexCmp_eq_zero : ∀ a b : List ℕ, lexCmp a b = 0 → a = b := by
  intro a
  induction a with
  | nil =>
    intro b h
    cases b with
    | nil => rfl
    | cons y ys => simp [lexCmp] at h
  | cons x xs ih =>
    intro b h
    cases b with
    | nil => simp [lexCmp] at h
    | cons y ys =>
      simp only [lexCmp] at h
      by_cases h1 : x < y
      · rw [if_pos h1] at h
        norm_num at h
      · rw [if_neg h1] at h
        by_cases h2 : y < x
        · rw [if_pos h2] at h
          norm_num at h
        · rw [if_neg h2] at h
          have : x = y := by omega
          rw [this, ih ys h]

theorem lexCmp_swap : ∀ a b : List ℕ, lexCmp b a = -lexCmp a b := by
  intro a
  induction a with
  | nil =>
    intro b
    cases b <;> simp [lexCmp]
  | cons x xs ih =>
    intro b
    cases b with
    | nil => simp [lexCmp]
    | cons y ys =>
      simp only [lexCmp]
      rcases lt_trichotomy x y with h | h | h
      · rw [if_neg (by omega), if_pos h, if_pos h]
        norm_num
      · subst h
        have hx : ¬x < x := lt_irrefl x
        simp only [if_neg hx]
        exact ih ys
      · rw [if_pos h, if_neg (by omega), if_pos h]

theorem lexCmp_trans : ∀ a b c : List ℕ,
    lexCmp a b = -1 → lexCmp b c = -1 → lexCmp a c = -1 := by
  intro a
  induction a with
  | nil =>
    intro b c hab hbc
    cases b with
    | nil => simp [lexCmp] at hab
    | cons y ys =>
      cases c with
      | nil => simp [lexCmp] at hbc
      | cons z zs => simp [lexCmp]
  | cons x xs ih =>
    intro b c hab hbc
    cases b with
    | nil => simp [lexCmp] at hab
    | cons y ys =>
      cases c with
      | nil => simp [lexCmp] at hbc
      | cons z zs =>
        simp only [lexCmp] at hab hbc ⊢
        by_cases h1 : x < y
        · have hyz : y ≤ z := by
            by_cases h2 : y < z
            · omega
            · rw [if_neg h2] at hbc
              by_cases h3 : z < y
              · rw [if_pos h3] at hbc
                norm_num at hbc
              · omega
          rw [if_pos (by omega)]
        · by_cases h1' : y < x
          · rw [if_neg h1, if_pos h1'] at hab
            norm_num at hab
          · have hxy : x = y := by omega
            subst hxy
            rw [if_neg h1, if_neg h1'] at hab
            by_cases h2 : x < z
            · rw [if_pos h2]
            · by_cases h3 : z < x
              · rw [if_neg h2, if_pos h3] at hbc
                norm_num at hbc
              · have hxz : x = z := by omega
                subst hxz
                rw [if_neg h2, if_neg h3] at hbc ⊢
                exact ih ys zs hab hbc

theorem lexCmp_irrefl_of_neg (a b : List ℕ) (h1 : lexCmp a b = -1)
    (h2 : lexCmp b a = -1) : False := by
  rw [lexCmp_swap a b, h1] at h2
  norm_num at h2

theorem lexCmp_cases : ∀ a b : List ℕ,
    lexCmp a b = -1 ∨ lexCmp a b = 0 ∨ lexCmp a b = 1 := by
  intro a
  induction a with
  | nil =>
    intro b
    cases b <;> simp [lexCmp]
  | cons x xs ih =>
    intro b
    cases b with
    | nil => simp [lexCmp]
    | cons y ys =>
      simp only [lexCmp]
      split
      · exact Or.inl rfl
      · split
        · exact Or.inr (Or.inr rfl)
        · exact ih ys

/-! ## Frame lemmas for the node store accessors -/

theorem nodeAt_setNext (s : Skiplist) (nd h n x : ℕ) :
    (s.setNext nd h n).nodeAt x =
      if x = nd ∧ x < s.nodes.length then
        ⟨(s.nodeAt nd).key, (s.nodeAt nd).pfx,
          (s.nodeAt nd).links.set h
            ⟨n, ((s.nodeAt nd).links.getD h default).prev⟩⟩
      else s.nodeAt x := by
  unfold Skiplist.setNext Skiplist.nodeAt
  simp only
  by_cases hx : x = nd
  · subst hx
    by_cases hlt : x < s.nodes.length
    · rw [if_pos ⟨rfl, hlt⟩, getD_set_self _ _ _ _ hlt]
    · rw [if_neg (by tauto), List.getD_eq_default, List.getD_eq_default]
      · omega
      · simp only [List.length_set]
        omega
  · rw [if_neg (by tauto), getD_set_ne _ _ _ _ _ (by omega)]

theorem nodeAt_setPrev (s : Skiplist) (nd h p x : ℕ) :
    (s.setPrev nd h p).nodeAt x =
      if x = nd ∧ x < s.nodes.length then
        ⟨(s.nodeAt nd).key, (s.nodeAt nd).pfx,
          (s.nodeAt nd).links.set h
            ⟨((s.nodeAt nd).links.getD h default).next, p⟩⟩
      else s.nodeAt x := by
  unfold Skiplist.setPrev Skiplist.nodeAt
  simp only
  by_cases hx : x = nd
  · subst hx
    by_cases hlt : x < s.nodes.length
    · rw [if_pos ⟨rfl, hlt⟩, getD_set_self _ _ _ _ hlt]
    · rw [if_neg (by tauto), List.getD_eq_default, List.getD_eq_default]
      · omega
      · simp only [List.length_set]
        omega
  · rw [if_neg (by tauto), getD_set_ne _ _ _ _ _ (by omega)]

theorem getNext_setNext (s : Skiplist) (nd h n x l : ℕ) :
    (s.setNext nd h n).getNext x l =
      if x = nd ∧ x < s.nodes.length ∧ l = h ∧ h < (s.nodeAt nd).links.length then n
      else s.getNext x l := by
  unfold Skiplist.getNext
  rw [nodeAt_setNext]
  by_cases hx : x = nd ∧ x < s.nodes.length
  · rw [if_pos hx]
    simp only
    by_cases hl : l = h
    · subst hl
      by_cases hlen : l < (s.nodeAt nd).links.length
      · rw [if_pos ⟨hx.1, hx.2, rfl, hlen⟩, getD_set_self _ _ _ _ hlen]
      · rw [if_neg (by tauto), List.getD_eq_default, hx.1, List.getD_eq_default]
        · omega
        · simp only [List.length_set]
          omega
    · rw [if_neg (by tauto), getD_set_ne _ _ _ _ _ (by omega), hx.1]
  · rw [if_neg hx, if_neg (by tauto)]

theorem getNext_setPrev (s : Skiplist) (nd h p x l : ℕ) :
    (s.setPrev nd h p).getNext x l = s.getNext x l := by
  unfold Skiplist.getNext
  rw [nodeAt_setPrev]
  by_cases hx : x = nd ∧ x < s.nodes.length
  · rw [if_pos hx]
    simp only
    by_cases hl : l = h
    · subst hl
      by_cases hlen : l < (s.nodeAt nd).links.length
      · rw [getD_set_self _ _ _ _ hlen, hx.1]
      · rw [List.getD_eq_default, hx.1, List.getD_eq_default]
        · omega
        · simp only [List.length_set]
          omega
    · rw [getD_set_ne _ _ _ _ _ (by omega), hx.1]
  · rw [if_neg hx]

theorem getPrev_setPrev (s : Skiplist) (nd h p x l : ℕ) :
    (s.setPrev nd h p).getPrev x l =
      if x = nd ∧ x < s.nodes.length ∧ l = h ∧ h < (s.nodeAt nd).links.length then p
      else s.getPrev x l := by
  unfold Skiplist.getPrev
  rw [nodeAt_setPrev]
  by_cases hx : x = nd ∧ x < s.nodes.length
  · rw [if_pos hx]
    simp only
    by_cases hl : l = h
    · subst hl
      by_cases hlen : l < (s.nodeAt nd).links.length
      · rw [if_pos ⟨hx.1, hx.2, rfl, hlen⟩, getD_set_self _ _ _ _ hlen]
      · rw [if_neg (by tauto), List.getD_eq_default, hx.1, List.getD_eq_default]
        · omega
        · simp only [List.length_set]
          omega
    · rw [if_neg (by tauto), getD_set_ne _ _ _ _ _ (by omega), hx.1]
  · rw [if_neg hx, if_neg (by tauto)]

theorem getPrev_setNext (s : Skiplist) (nd h n x l : ℕ) :
    (s.setNext nd h n).getPrev x l = s.getPrev x l := by
  unfold Skiplist.getPrev
  rw [nodeAt_setNext]
  by_cases hx : x = nd ∧ x < s.nodes.length
  · rw [if_pos hx]
    simp only
    by_cases hl : l = h
    · subst hl
      by_cases hlen : l < (s.nodeAt nd).links.length
      · rw [getD_set_self _ _ _ _ hlen, hx.1]
      · rw [List.getD_eq_default, hx.1, List.getD_eq_default]
        · omega
        · simp only [List.length_set]
          omega
    · rw [getD_set_ne _ _ _ _ _ (by omega), hx.1]
  · rw [if_neg hx]

theorem getKey_setNext (s : Skiplist) (nd h n x : ℕ) :
    (s.setNext nd h n).getKey x = s.getKey x := by
  unfold Skiplist.getKey
  rw [nodeAt_setNext]
  split
  · rename_i hc
    rw [hc.1]
  · rfl

theorem getKey_setPrev (s : Skiplist) (nd h p x : ℕ) :
    (s.setPrev nd h p).getKey x = s.getKey x := by
  unfold Skiplist.getKey
  rw [nodeAt_setPrev]
  split
  · rename_i hc
    rw [hc.1]
  · rfl

theorem getKeyPfx_setNext (s : Skiplist) (nd h n x : ℕ) :
    (s.setNext nd h n).getKeyPfx x = s.getKeyPfx x := by
  unfold Skiplist.getKeyPfx
  rw [nodeAt_setNext]
  split
  · rename_i hc
    rw [hc.1]
  · rfl

theorem getKeyPfx_setPrev (s : Skiplist) (nd h p x : ℕ) :
    (s.setPrev nd h p).getKeyPfx x = s.getKeyPfx x := by
  unfold Skiplist.getKeyPfx
  rw [nodeAt_setPrev]
  split
  · rename_i hc
    rw [hc.1]
  · rfl

theorem linksLen_setNext (s : Skiplist) (nd h n x : ℕ) :
    ((s.setNext nd h n).nodeAt x).links.length = ((s.nodeAt x).links.length) := by
  rw [nodeAt_setNext]
  split
  · rename_i hc
    simp only [List.length_set]
    rw [hc.1]
  · rfl

theorem linksLen_setPrev (s : Skiplist) (nd h p x : ℕ) :
    ((s.setPrev nd h p).nodeAt x).links.length = ((s.nodeAt x).links.length) := by
  rw [nodeAt_setPrev]
  split
  · rename_i hc
    simp only [List.length_set]
    rw [hc.1]
  · rfl

theorem setNext_fields (s : Skiplist) (nd h n : ℕ) :
    (s.setNext nd h n).head = s.head ∧ (s.setNext nd h n).tail = s.tail ∧
    (s.setNext nd h n).height = s.height ∧
    (s.setNext nd h n).storage = s.storage ∧
    (s.setNext nd h n).nodes.length = s.nodes.length := by
  refine ⟨rfl, rfl, rfl, rfl, ?_⟩
  unfold Skiplist.setNext
  simp

theorem setPrev_fields (s : Skiplist) (nd h p : ℕ) :
    (s.setPrev nd h p).head = s.head ∧ (s.setPrev nd h p).tail = s.tail ∧
    (s.setPrev nd h p).height = s.height ∧
    (s.setPrev nd h p).storage = s.storage ∧
    (s.setPrev nd h p).nodes.length = s.nodes.length := by
  refine ⟨rfl, rfl, rfl, rfl, ?_⟩
  unfold Skiplist.setPrev
  simp

/-! ## Frame lemmas for spliceOne and spliceLevels -/

theorem spliceOne_fields (s : Skiplist) (nd p n l : ℕ) :
    (spliceOne s nd p n l).head = s.head ∧ (spliceOne s nd p n l).tail = s.tail ∧
    (spliceOne s nd p n l).height = s.height ∧
    (spliceOne s nd p n l).storage = s.storage ∧
    (spliceOne s nd p n l).nodes.length = s.nodes.length := by
  unfold spliceOne
  refine ⟨rfl, rfl, rfl, rfl, ?_⟩
  simp [(setPrev_fields _ _ _ _).2.2.2.2, (setNext_fields _ _ _ _).2.2.2.2]

theorem spliceOne_getKey (s : Skiplist) (nd p n l x : ℕ) :
    (spliceOne s nd p n l).getKey x = s.getKey x := by
  unfold spliceOne
  rw [getKey_setPrev, getKey_setNext, getKey_setPrev, getKey_setNext]

theorem spliceOne_getKeyPfx (s : Skiplist) (nd p n l x : ℕ) :
    (spliceOne s nd p n l).getKeyPfx x = s.getKeyPfx x := by
  unfold spliceOne
  rw [getKeyPfx_setPrev, getKeyPfx_setNext, getKeyPfx_setPrev, getKeyPfx_setNext]

theorem spliceOne_linksLen (s : Skiplist) (nd p n l x : ℕ) :
    ((spliceOne s nd p n l).nodeAt x).links.length = (s.nodeAt x).links.length := by
  unfold spliceOne
  rw [linksLen_setPrev, linksLen_setNext, linksLen_setPrev, linksLen_setNext]

theorem spliceOne_getNext (s : Skiplist) (nd p n l x lp : ℕ) :
    (spliceOne s nd p n l).getNext x lp =
      if x = p ∧ x < s.nodes.length ∧ lp = l ∧ l < (s.nodeAt p).links.length then nd
      else if x = nd ∧ x < s.nodes.length ∧ lp = l ∧
          l < (s.nodeAt nd).links.length then n
      else s.getNext x lp := by
  unfold spliceOne
  rw [getNext_setPrev, getNext_setNext, getNext_setPrev, getNext_setNext]
  have e1 : ((s.setNext nd l n).setPrev nd l p).nodes.length = s.nodes.length := by
    rw [(setPrev_fields _ _ _ _).2.2.2.2, (setNext_fields _ _ _ _).2.2.2.2]
  have e2 : (((s.setNext nd l n).setPrev nd l p).nodeAt p).links.length =
      (s.nodeAt p).links.length := by
    rw [linksLen_setPrev, linksLen_setNext]
  rw [e1, e2]

theorem spliceLevels_zero (s : Skiplist) (nd : ℕ) (spl : List (ℕ × ℕ)) :
    spliceLevels s nd spl 0 = s := rfl

theorem spliceLevels_succ (s : Skiplist) (nd : ℕ) (spl : List (ℕ × ℕ)) (k : ℕ) :
    spliceLevels s nd spl (k + 1) =
      spliceOne (spliceLevels s nd spl k) nd (spl.getD k default).1
        (spl.getD k default).2 k := by
  unfold spliceLevels
  rw [List.range_succ, List.foldl_append]
  rfl

theorem spliceLevels_fields (s : Skiplist) (nd : ℕ) (spl : List (ℕ × ℕ)) :
    ∀ h, (spliceLevels s nd spl h).head = s.head ∧
      (spliceLevels s nd spl h).tail = s.tail ∧
      (spliceLevels s nd spl h).height = s.height ∧
      (spliceLevels s nd spl h).storage = s.storage ∧
      (spliceLevels s nd spl h).nodes.length = s.nodes.length := by
  intro h
  induction h with
  | zero => exact ⟨rfl, rfl, rfl, rfl, rfl⟩
  | succ k ih =>
    rw [spliceLevels_succ]
    have e := spliceOne_fields (spliceLevels s nd spl k) nd
      (spl.getD k default).1 (spl.getD k default).2 k
    exact ⟨e.1.trans ih.1, e.2.1.trans ih.2.1, e.2.2.1.trans ih.2.2.1,
      e.2.2.2.1.trans ih.2.2.2.1, e.2.2.2.2.trans ih.2.2.2.2⟩

theorem spliceLevels_getKey (s : Skiplist) (nd : ℕ) (spl : List (ℕ × ℕ)) :
    ∀ h x, (spliceLevels s nd spl h).getKey x = s.getKey x := by
  intro h
  induction h with
  | zero => exact fun x => rfl
  | succ k ih =>
    intro x
    rw [spliceLevels_succ, spliceOne_getKey]
    exact ih x

theorem spliceLevels_getKeyPfx (s : Skiplist) (nd : ℕ) (spl : List (ℕ × ℕ)) :
    ∀ h x, (spliceLevels s nd spl h).getKeyPfx x = s.getKeyPfx x := by
  intro h
  induction h with
  | zero => exact fun x => rfl
  | succ k ih =>
    intro x
    rw [spliceLevels_succ, spliceOne_getKeyPfx]
    exact ih x

theorem spliceLevels_linksLen (s : Skiplist) (nd : ℕ) (spl : List (ℕ × ℕ)) :
    ∀ h x, ((spliceLevels s nd spl h).nodeAt x).links.length =
      (s.nodeAt x).links.length := by
  intro h
  induction h with
  | zero => exact fun x => rfl
  | succ k ih =>
    intro x
    rw [spliceLevels_succ, spliceOne_linksLen]
    exact ih x

/-- helper: a level at or above the splice height is untouched. -/
theorem spliceLevels_getNext_ge (s : Skiplist) (nd : ℕ) (spl : List (ℕ × ℕ)) :
    ∀ h x l, h ≤ l →
      (spliceLevels s nd spl h).getNext x l = s.getNext x l := by
  intro h
  induction h with
  | zero => exact fun x l _ => rfl
  | succ k ih =>
    intro x l hle
    rw [spliceLevels_succ, spliceOne_getNext,
      if_neg (by omega), if_neg (by omega)]
    exact ih x l (by omega)

/-- helper: at a level below the splice height, the final next map at that
level is the next map obtained by applying just that level's splice to the
base state. -/
theorem spliceLevels_getNext_lt (s : Skiplist) (nd : ℕ) (spl : List (ℕ × ℕ)) :
    ∀ h x l, l < h →
      (spliceLevels s nd spl h).getNext x l =
        (spliceOne s nd (spl.getD l default).1 (spl.getD l default).2 l).getNext
          x l := by
  intro h
  induction h with
  | zero => intro x l h0; omega
  | succ k ih =>
    intro x l hlt
    rw [spliceLevels_succ, spliceOne_getNext]
    have hfieldk := spliceLevels_fields s nd spl k
    by_cases hlk : l = k
    · subst hlk
      rw [spliceOne_getNext]
      rw [hfieldk.2.2.2.2, spliceLevels_linksLen, spliceLevels_linksLen,
        spliceLevels_getNext_ge s nd spl l x l (le_refl l)]
    · rw [if_neg (by omega), if_neg (by omega)]
      exact ih x l (by omega)

/-! ## Frame lemmas for newNodeRec -/

theorem newNodeRec_fields (s : Skiplist) (hgt k p : ℕ) :
    (newNodeRec s hgt k p).1 = s.nodes.length ∧
    ((newNodeRec s hgt k p).2).head = s.head ∧
    ((newNodeRec s hgt k p).2).tail = s.tail ∧
    ((newNodeRec s hgt k p).2).height = s.height ∧
    ((newNodeRec s hgt k p).2).storage = s.storage ∧
    ((newNodeRec s hgt k p).2).nodes.length = s.nodes.length + 1 := by
  refine ⟨rfl, rfl, rfl, rfl, rfl, ?_⟩
  unfold newNodeRec
  simp

theorem newNodeRec_nodeAt_lt (s : Skiplist) (hgt k p x : ℕ)
    (hx : x < s.nodes.length) :
    ((newNodeRec s hgt k p).2).nodeAt x = s.nodeAt x := by
  unfold newNodeRec Skiplist.nodeAt
  simp only
  rw [List.getD_append _ _ _ _ hx]

theorem newNodeRec_nodeAt_self (s : Skiplist) (hgt k p : ℕ) :
    ((newNodeRec s hgt k p).2).nodeAt s.nodes.length =
      ⟨k, p, List.replicate hgt default⟩ := by
  unfold newNodeRec Skiplist.nodeAt
  simp only
  rw [List.getD_append_right _ _ _ _ (le_refl _)]
  simp

theorem newNodeRec_getNext_lt (s : Skiplist) (hgt k p x l : ℕ)
    (hx : x < s.nodes.length) :
    ((newNodeRec s hgt k p).2).getNext x l = s.getNext x l := by
  unfold Skiplist.getNext
  rw [newNodeRec_nodeAt_lt _ _ _ _ _ hx]

theorem getD_replicate (n i : ℕ) (d : α) :
    (List.replicate n d).getD i d = d := by
  by_cases h : i < n
  · rw [List.getD_eq_getElem _ _ (by simpa using h)]
    exact List.getElem_replicate _ (by simpa using h)
  · rw [List.getD_eq_default]
    simpa using h

theorem newNodeRec_getNext_self (s : Skiplist) (hgt k p l : ℕ) :
    ((newNodeRec s hgt k p).2).getNext s.nodes.length l = 0 := by
  unfold Skiplist.getNext
  rw [newNodeRec_nodeAt_self]
  simp only
  rw [getD_replicate]
  rfl

theorem newNodeRec_getKey_lt (s : Skiplist) (hgt k p x : ℕ)
    (hx : x < s.nodes.length) :
    ((newNodeRec s hgt k p).2).getKey x = s.getKey x := by
  unfold Skiplist.getKey
  rw [newNodeRec_nodeAt_lt _ _ _ _ _ hx]

theorem newNodeRec_getKeyPfx_lt (s : Skiplist) (hgt k p x : ℕ)
    (hx : x < s.nodes.length) :
    ((newNodeRec s hgt k p).2).getKeyPfx x = s.getKeyPfx x := by
  unfold Skiplist.getKeyPfx
  rw [newNodeRec_nodeAt_lt _ _ _ _ _ hx]

/-! ## Chain walk lemmas -/

theorem getLast?_cons_ne_nil (a : α) (lst : List α) (h : lst ≠ []) :
    (a :: lst).getLast? = lst.getLast? := by
  obtain ⟨y, ys, rfl⟩ := List.exists_cons_of_ne_nil h
  simp

/-- helper: a chain walk is never the empty list. -/
theorem chainFrom_ne_nil (s : Skiplist) (level fuel nd : ℕ) :
    chainFrom s level fuel nd ≠ [] := by
  cases fuel with
  | zero => simp [chainFrom]
  | succ fuel =>
    simp only [chainFrom]
    split <;> simp

theorem chainFrom_eq_cons (t : Skiplist) (l : ℕ) :
    ∀ fuel x, ∃ r, chainFrom t l fuel x = x :: r := by
  intro fuel x
  cases fuel with
  | zero => exact ⟨[], rfl⟩
  | succ fuel =>
    simp only [chainFrom]
    split
    · exact ⟨[], rfl⟩
    · exact ⟨_, rfl⟩

/-- helper: a chain walk only depends on the next map at its own level,
restricted to the nodes it visits, and on the tail sentinel. -/
theorem chainFrom_congr (t td : Skiplist) (l : ℕ) (htail : td.tail = t.tail) :
    ∀ fuel start,
      (∀ x ∈ chainFrom t l fuel start, td.getNext x l = t.getNext x l) →
      chainFrom td l fuel start = chainFrom t l fuel start := by
  intro fuel
  induction fuel with
  | zero => intro start _; rfl
  | succ fuel ih =>
    intro start h
    simp only [chainFrom, htail]
    by_cases hs : start = t.tail
    · rw [if_pos hs, if_pos hs]
    · rw [if_neg hs, if_neg hs]
      have hmem : start ∈ chainFrom t l (fuel + 1) start := by
        simp [chainFrom, hs]
      rw [h start hmem]
      refine congrArg (start :: ·) (ih (t.getNext start l) ?_)
      intro x hx
      apply h
      simp only [chainFrom, if_neg hs]
      exact List.mem_cons_of_mem _ hx

/-- helper: once the walk reaches the tail within its fuel, adding fuel
does not change it. -/
theorem chainFrom_fuel_succ (t : Skiplist) (l : ℕ) :
    ∀ fuel start, (chainFrom t l fuel start).getLast? = some t.tail →
      chainFrom t l (fuel + 1) start = chainFrom t l fuel start := by
  intro fuel
  induction fuel with
  | zero =>
    intro start h
    simp only [chainFrom] at h ⊢
    simp only [List.getLast?_singleton, Option.some.injEq] at h
    rw [if_pos h]
  | succ fuel ih =>
    intro start h
    by_cases hs : start = t.tail
    · simp [chainFrom, hs]
    · have hexp : chainFrom t l (fuel + 1) start =
          start :: chainFrom t l fuel (t.getNext start l) := by
        simp [chainFrom, hs]
      rw [hexp] at h
      rw [getLast?_cons_ne_nil _ _ (chainFrom_ne_nil t l fuel _)] at h
      have hrec := ih (t.getNext start l) h
      calc chainFrom t l (fuel + 1 + 1) start
          = start :: chainFrom t l (fuel + 1) (t.getNext start l) := by
            simp [chainFrom, hs]
        _ = start :: chainFrom t l fuel (t.getNext start l) := by rw [hrec]
        _ = chainFrom t l (fuel + 1) start := hexp.symm

theorem chainFrom_fuel_ge (t : Skiplist) (l fuel fuelb start : ℕ)
    (hle : fuel ≤ fuelb)
    (h : (chainFrom t l fuel start).getLast? = some t.tail) :
    chainFrom t l fuelb start = chainFrom t l fuel start := by
  obtain ⟨k, rfl⟩ := Nat.exists_eq_add_of_le hle
  clear hle
  induction k with
  | zero => rfl
  | succ k ih =>
    have e : fuel + (k + 1) = fuel + k + 1 := by omega
    rw [e, chainFrom_fuel_succ t l (fuel + k) start (by rw [ih]; exact h), ih]

/-- helper: the walk resumed at any member of a chain produces the
corresponding suffix of the chain. -/
theorem chainFrom_suffix (t : Skiplist) (l : ℕ) :
    ∀ fuel start A x R, chainFrom t l fuel start = A ++ x :: R →
      chainFrom t l (fuel - A.length) x = x :: R := by
  intro fuel
  induction fuel with
  | zero =>
    intro start A x R h
    simp only [chainFrom] at h
    cases A with
    | nil =>
      simp only [List.nil_append, List.cons.injEq] at h
      obtain ⟨rfl, hR⟩ := h
      simp only [List.length_nil, Nat.sub_zero, chainFrom]
      rw [← hR]
    | cons a Ap =>
      exfalso
      simp only [List.cons_append, List.cons.injEq] at h
      exact absurd h.2 (by simp)
  | succ fuel ih =>
    intro start A x R h
    by_cases hs : start = t.tail
    · rw [show chainFrom t l (fuel + 1) start = [start] by simp [chainFrom, hs]]
        at h
      cases A with
      | nil =>
        simp only [List.nil_append, List.cons.injEq] at h
        obtain ⟨rfl, hR⟩ := h
        simp [chainFrom, hs, hR.symm]
      | cons a Ap =>
        exfalso
        simp only [List.cons_append, List.cons.injEq] at h
        exact absurd h.2 (by simp)
    · have hexp : chainFrom t l (fuel + 1) start =
          start :: chainFrom t l fuel (t.getNext start l) := by
        simp [chainFrom, hs]
      rw [hexp] at h
      cases A with
      | nil =>
        simp only [List.nil_append, List.cons.injEq] at h
        obtain ⟨rfl, hR⟩ := h
        simp only [List.length_nil, Nat.sub_zero]
        rw [hexp, hR]
      | cons a Ap =>
        simp only [List.cons_append, List.cons.injEq] at h
        have := ih (t.getNext start l) Ap x R h.2
        simpa [Nat.succ_sub_succ] using this

/-- helper: splicing a fresh node between an adjacent pair of a chain walk
rewrites the walk to include the new node between them; everything else is
untouched. -/
theorem chainFrom_splice (t td : Skiplist) (l nd p n : ℕ)
    (htail : td.tail = t.tail)
    (hother : ∀ x, x ≠ p → x ≠ nd → td.getNext x l = t.getNext x l)
    (hp : td.getNext p l = nd)
    (hnd : td.getNext nd l = n)
    (hndtail : nd ≠ t.tail) :
    ∀ fuel start A B, chainFrom t l fuel start = A ++ p :: n :: B →
      (A ++ p :: n :: B).Nodup → nd ∉ A ++ p :: n :: B →
      chainFrom td l (fuel + 1) start = A ++ p :: nd :: n :: B := by
  intro fuel
  induction fuel with
  | zero =>
    intro start A B h _ _
    exfalso
    simp only [chainFrom] at h
    cases A with
    | nil =>
      simp only [List.nil_append, List.cons.injEq] at h
      exact absurd h.2 (by simp)
    | cons a Ap =>
      simp only [List.cons_append, List.cons.injEq] at h
      exact absurd h.2 (by simp)
  | succ fuel ih =>
    intro start A B h hnodup hndmem
    by_cases hs : start = t.tail
    · exfalso
      rw [show chainFrom t l (fuel + 1) start = [start] by simp [chainFrom, hs]]
        at h
      cases A with
      | nil =>
        simp only [List.nil_append, List.cons.injEq] at h
        exact absurd h.2 (by simp)
      | cons a Ap =>
        simp only [List.cons_append, List.cons.injEq] at h
        exact absurd h.2 (by simp)
    · have hexp : chainFrom t l (fuel + 1) start =
          start :: chainFrom t l fuel (t.getNext start l) := by
        simp [chainFrom, hs]
      rw [hexp] at h
      have hstail : start ≠ td.tail := by rw [htail]; exact hs
      cases A with
      | nil =>
        simp only [List.nil_append, List.cons.injEq] at h
        obtain ⟨rfl, h2⟩ := h
        have hx : t.getNext start l = n := by
          obtain ⟨r, hr⟩ := chainFrom_eq_cons t l fuel (t.getNext start l)
          rw [hr] at h2
          exact ((List.cons.injEq _ _ _ _).mp h2).1
        rw [hx] at h2
        have hndtl : nd ≠ td.tail := by rw [htail]; exact hndtail
        have hchain : chainFrom td l fuel n = chainFrom t l fuel n := by
          apply chainFrom_congr t td l htail
          intro x hx2
          rw [h2] at hx2
          apply hother
          · intro hxp
            subst hxp
            simp only [List.nil_append, List.nodup_cons] at hnodup
            exact hnodup.1 hx2
          · intro hxnd
            subst hxnd
            exact hndmem (List.mem_cons_of_mem _ hx2)
        calc chainFrom td l (fuel + 1 + 1) start
            = start :: chainFrom td l (fuel + 1) (td.getNext start l) := by
              simp [chainFrom, hstail]
          _ = start :: chainFrom td l (fuel + 1) nd := by rw [hp]
          _ = start :: nd :: chainFrom td l fuel (td.getNext nd l) := by
              simp [chainFrom, hndtl]
          _ = start :: nd :: chainFrom td l fuel n := by rw [hnd]
          _ = start :: nd :: n :: B := by rw [hchain, h2]
      | cons a Ap =>
        simp only [List.cons_append, List.cons.injEq] at h
        obtain ⟨rfl, h2⟩ := h
        have hnodup2 : (Ap ++ p :: n :: B).Nodup := by
          rw [List.cons_append, List.nodup_cons] at hnodup
          exact hnodup.2
        have hnotmem : start ∉ Ap ++ p :: n :: B := by
          rw [List.cons_append, List.nodup_cons] at hnodup
          exact hnodup.1
        have hanep : start ≠ p := by
          intro hap
          subst hap
          exact hnotmem (by simp)
        have hanend : start ≠ nd := by
          intro hand
          rw [← hand] at hndmem
          exact hndmem (by simp)
        have hndmem2 : nd ∉ Ap ++ p :: n :: B := by
          intro hm
          rw [List.cons_append] at hndmem
          exact hndmem (List.mem_cons_of_mem _ hm)
        have hrec := ih (t.getNext start l) Ap B h2 hnodup2 hndmem2
        calc chainFrom td l (fuel + 1 + 1) start
            = start :: chainFrom td l (fuel + 1) (td.getNext start l) := by
              simp [chainFrom, hstail]
          _ = start :: chainFrom td l (fuel + 1) (t.getNext start l) := by
              rw [hother start hanep hanend]
          _ = start :: (Ap ++ p :: nd :: n :: B) := by rw [hrec]
          _ = (start :: Ap) ++ p :: nd :: n :: B := by simp

/-! ## Small list utilities for walk decomposition -/

theorem dropWhile_head_not (p : α → Bool) :
    ∀ (l : List α) (x : α) (r : List α), l.dropWhile p = x :: r → p x = false := by
  intro l
  induction l with
  | nil => intro x r h; simp [List.dropWhile] at h
  | cons a t ih =>
    intro x r h
    by_cases hp : p a = true
    · rw [List.dropWhile_cons_of_pos hp] at h
      exact ih x r h
    · rw [List.dropWhile_cons_of_neg hp] at h
      obtain ⟨rfl, -⟩ := (List.cons.injEq _ _ _ _).mp h
      simpa using hp

theorem getLastD_mem : ∀ (lst : List α) (d : α), lst ≠ [] → lst.getLastD d ∈ lst := by
  intro lst
  induction lst with
  | nil => intro d h; exact absurd rfl h
  | cons b t ih =>
    intro d h
    rw [List.getLastD_cons]
    cases t with
    | nil => simp [List.getLastD]
    | cons c u => exact List.mem_cons_of_mem _ (ih b (by simp))

theorem cons_getLastD_decomp (a : α) :
    ∀ lst : List α, ∃ C, a :: lst = C ++ [lst.getLastD a] := by
  intro lst
  induction lst generalizing a with
  | nil => exact ⟨[], rfl⟩
  | cons b t ih =>
    rw [List.getLastD_cons]
    obtain ⟨C, hC⟩ := ih b
    exact ⟨a :: C, by rw [List.cons_append, ← hC]⟩

/-! ## Level walk decomposition under the structural invariant -/

/-- helper: a member of head :: interior is not the tail sentinel. -/
theorem mem_head_interior_ne_tail (s : Skiplist) (hS : StructOK s) (l : ℕ)
    (hl : l < maxHeight) (start : ℕ) (hstart : start ∈ s.head :: interior s l) :
    start ≠ s.tail := by
  rcases List.mem_cons.mp hstart with rfl | hmem
  · rw [hS.head_eq, hS.tail_eq]
    omega
  · have := (hS.mem_bound l hl start hmem).1
    rw [hS.tail_eq]
    omega

/-- helper: the level walk ends at the tail. -/
theorem levelList_getLast (s : Skiplist) (hS : StructOK s) (l : ℕ)
    (hl : l < maxHeight) : (levelList s l).getLast? = some s.tail := by
  rw [hS.shape l hl, ← List.cons_append, List.getLast?_concat]

/-- helper: the level walk has no duplicates. -/
theorem levelList_nodup (s : Skiplist) (hS : StructOK s) (l : ℕ)
    (hl : l < maxHeight) : (levelList s l).Nodup := by
  rw [hS.shape l hl]
  have hint := hS.nodup l hl
  have hmb := hS.mem_bound l hl
  rw [List.nodup_cons]
  constructor
  · intro hmem
    rcases List.mem_append.mp hmem with hmem | hmem
    · have := (hmb _ hmem).1
      rw [hS.head_eq] at this
      omega
    · rw [List.mem_singleton] at hmem
      rw [hS.head_eq, hS.tail_eq] at hmem
      omega
  · rw [List.nodup_append]
    refine ⟨hint, by simp, ?_⟩
    intro x hx
    have := (hmb x hx).1
    rw [List.mem_singleton]
    rw [hS.tail_eq]
    omega

/-- helper: a walk of a level from any node of the level recovers the
corresponding suffix of the level walk, ending at the tail. -/
theorem walk_setup (s : Skiplist) (hS : StructOK s) (l : ℕ) (hl : l < maxHeight)
    (start : ℕ) (hstart : start ∈ s.head :: interior s l) :
    ∃ A B, levelList s l = A ++ start :: B ∧
      chainFrom s l (s.nodes.length + 1) (s.getNext start l) = B ∧
      B.getLast? = some s.tail ∧
      (∀ x ∈ B, x ∈ interior s l ∨ x = s.tail) := by
  have hstne : start ≠ s.tail := mem_head_interior_ne_tail s hS l hl start hstart
  have hmemL : start ∈ levelList s l := by
    rw [hS.shape l hl]
    rcases List.mem_cons.mp hstart with rfl | hmem
    · exact List.mem_cons_self _ _
    · exact List.mem_cons_of_mem _ (List.mem_append_left _ hmem)
  obtain ⟨A, B, hsplit⟩ := List.append_of_mem hmemL
  have hlast := levelList_getLast s hS l hl
  have hBne : B ≠ [] := by
    intro hB
    subst hB
    rw [hsplit, List.getLast?_concat] at hlast
    exact hstne (by simpa using hlast)
  have hlastB : B.getLast? = some s.tail := by
    rw [hsplit, List.getLast?_append, getLast?_cons_ne_nil _ _ hBne] at hlast
    obtain ⟨y, ys, rfl⟩ := List.exists_cons_of_ne_nil hBne
    simpa [List.getLast?_eq_none_iff] using hlast
  have hsuffix : chainFrom s l (s.nodes.length + 1 - A.length) start = start :: B :=
    chainFrom_suffix s l (s.nodes.length + 1) s.head A start B hsplit
  have hlastSB : (chainFrom s l (s.nodes.length + 1 - A.length) start).getLast? =
      some s.tail := by
    rw [hsuffix, getLast?_cons_ne_nil _ _ hBne]
    exact hlastB
  have hfull : chainFrom s l (s.nodes.length + 1) start = start :: B := by
    rw [chainFrom_fuel_ge s l _ _ start (by omega) hlastSB, hsuffix]
  have hnextN : chainFrom s l s.nodes.length (s.getNext start l) = B := by
    have hexp := hfull
    simp only [chainFrom, if_neg hstne] at hexp
    exact ((List.cons.injEq _ _ _ _).mp hexp).2
  have hlastN : (chainFrom s l s.nodes.length
      (s.getNext start l)).getLast? = some s.tail := by
    rw [hnextN]
    exact hlastB
  have hnext : chainFrom s l (s.nodes.length + 1) (s.getNext start l) = B := by
    rw [chainFrom_fuel_ge s l s.nodes.length (s.nodes.length + 1) _
      (by omega) hlastN, hnextN]
  refine ⟨A, B, hsplit, hnext, hlastB, ?_⟩
  intro x hx
  have hshape := hS.shape l hl
  rw [hsplit] at hshape
  cases A with
  | nil =>
    simp only [List.nil_append, List.cons.injEq] at hshape
    rw [hshape.2] at hx
    rcases List.mem_append.mp hx with hx | hx
    · exact Or.inl hx
    · exact Or.inr (List.mem_singleton.mp hx)
  | cons a Ap =>
    simp only [List.cons_append, List.cons.injEq] at hshape
    have hxmem : x ∈ Ap ++ start :: B := by
      exact List.mem_append_right _ (List.mem_cons_of_mem _ hx)
    rw [hshape.2] at hxmem
    rcases List.mem_append.mp hxmem with hx2 | hx2
    · exact Or.inl hx2
    · exact Or.inr (List.mem_singleton.mp hx2)

/-! ## The walk characterisation of the splice search (C1) -/

/-- helper: the next node returned by the splice search is always the
level-successor of the returned prev node. -/
theorem findSpliceForLevelRec_next_eq (s : Skiplist) (key : List ℕ)
    (kpfx level : ℕ) :
    ∀ fuel start,
      s.getNext (findSpliceForLevelRec s key kpfx level fuel start).1.1 level =
        (findSpliceForLevelRec s key kpfx level fuel start).1.2.1 := by
  intro fuel
  induction fuel with
  | zero => intro start; rfl
  | succ fuel ih =>
    intro start
    simp only [findSpliceForLevelRec]
    split
    · rfl
    · split
      · rfl
      · split
        · split
          · rfl
          · split
            · rfl
            · exact ih _
        · exact ih _

/-- helper: a chain of positive fuel starts with its start node. -/
theorem chainFrom_succ_cons (s : Skiplist) (level fuel nd : ℕ) :
    ∃ t, chainFrom s level (fuel + 1) nd = nd :: t := by
  simp only [chainFrom]
  split
  · exact ⟨[], rfl⟩
  · exact ⟨_, rfl⟩

/-- helper: one advancing step of the splice search loop. -/
theorem findSpliceForLevelRec_advance (s : Skiplist) (key : List ℕ)
    (kpfx level fuel start : ℕ)
    (hadv : advanceAt s key kpfx (s.getNext start level) = true) :
    (findSpliceForLevelRec s key kpfx level (fuel + 1) start).1 =
      (findSpliceForLevelRec s key kpfx level fuel (s.getNext start level)).1 := by
  unfold advanceAt at hadv
  simp only [findSpliceForLevelRec]
  by_cases htail : s.getNext start level = s.tail
  · rw [if_pos htail] at hadv
    simp at hadv
  · rw [if_neg htail] at hadv
    rw [if_neg htail]
    by_cases hlt : kpfx < s.getKeyPfx (s.getNext start level)
    · rw [if_pos hlt] at hadv
      simp at hadv
    · rw [if_neg hlt] at hadv
      rw [if_neg hlt]
      by_cases heq : kpfx = s.getKeyPfx (s.getNext start level)
      · rw [if_pos heq] at hadv
        simp only [decide_eq_true_eq] at hadv
        rw [if_pos heq, if_neg (by omega), if_neg (by omega)]
      · rw [if_neg heq]

/-- helper: one stopping step of the splice search loop: when the candidate
is not advanced past, the loop returns start as prev, the candidate as
next, and the foundAt test of the candidate. -/
theorem findSpliceForLevelRec_stop (s : Skiplist) (key : List ℕ)
    (kpfx level fuel start : ℕ)
    (hadv : advanceAt s key kpfx (s.getNext start level) = false) :
    (findSpliceForLevelRec s key kpfx level (fuel + 1) start).1 =
      (start, s.getNext start level,
        foundAt s key kpfx (s.getNext start level)) := by
  unfold advanceAt at hadv
  unfold foundAt
  simp only [findSpliceForLevelRec]
  by_cases htail : s.getNext start level = s.tail
  · rw [if_pos htail]
    simp [htail]
  · rw [if_neg htail] at hadv
    rw [if_neg htail]
    by_cases hlt : kpfx < s.getKeyPfx (s.getNext start level)
    · rw [if_pos hlt]
      have hne : ¬kpfx = s.getKeyPfx (s.getNext start level) := by omega
      simp [hne]
    · rw [if_neg hlt] at hadv
      rw [if_neg hlt]
      by_cases heq : kpfx = s.getKeyPfx (s.getNext start level)
      · rw [if_pos heq] at hadv
        simp only [decide_eq_true_eq, decide_eq_false_iff_not, not_lt] at hadv
        rw [if_pos heq]
        by_cases hzero : s.storage.cmp key (s.getKey (s.getNext start level)) = 0
        · rw [if_pos hzero]
          simp [htail, heq, hzero]
        · rw [if_neg hzero, if_pos (by omega)]
          simp [hzero]
      · rw [if_neg heq] at hadv
        simp at hadv

/-- helper: walk characterisation of the splice search.  Provided the walk
from the successor of `start` reaches the tail within the fuel, the search
returns: as prev, the last walked node the loop advanced past (or `start`
when it advanced past none); as next, the first walked node the loop
stopped at; and found is the `foundAt` test of that stop node. -/
theorem findSpliceForLevelRec_walk (s : Skiplist) (key : List ℕ)
    (kpfx level : ℕ) :
    ∀ fuel start,
      (chainFrom s level fuel (s.getNext start level)).getLast? = some s.tail →
      (findSpliceForLevelRec s key kpfx level fuel start).1 =
        (((chainFrom s level fuel (s.getNext start level)).takeWhile
            (advanceAt s key kpfx)).getLastD start,
         ((chainFrom s level fuel (s.getNext start level)).dropWhile
            (advanceAt s key kpfx)).headD s.tail,
         foundAt s key kpfx
           (((chainFrom s level fuel (s.getNext start level)).dropWhile
              (advanceAt s key kpfx)).headD s.tail)) := by
  intro fuel
  induction fuel with
  | zero =>
    intro start hlast
    have h1 : s.getNext start level = s.tail := by
      simpa [chainFrom] using hlast
    have hadv : advanceAt s key kpfx (s.getNext start level) = false := by
      rw [h1]
      simp [advanceAt]
    have hfound : foundAt s key kpfx (s.getNext start level) = false := by
      rw [h1]
      simp [foundAt]
    simp [findSpliceForLevelRec, chainFrom, List.takeWhile_cons,
      List.dropWhile_cons, hadv, hfound]
  | succ fuel ih =>
    intro start hlast
    by_cases hadv : advanceAt s key kpfx (s.getNext start level) = true
    · have htail : s.getNext start level ≠ s.tail := by
        intro h
        rw [h] at hadv
        simp [advanceAt] at hadv
      have hw : chainFrom s level (fuel + 1) (s.getNext start level) =
          s.getNext start level ::
            chainFrom s level fuel (s.getNext (s.getNext start level) level) := by
        simp [chainFrom, htail]
      rw [hw] at hlast ⊢
      have hne := chainFrom_ne_nil s level fuel
        (s.getNext (s.getNext start level) level)
      have hlast2 : (chainFrom s level fuel
          (s.getNext (s.getNext start level) level)).getLast? = some s.tail := by
        rw [List.getLast?_cons] at hlast
        rcases he : (chainFrom s level fuel
            (s.getNext (s.getNext start level) level)).getLast? with - | x
        · exact absurd (List.getLast?_eq_none_iff.mp he) hne
        · rw [he] at hlast
          simpa using hlast
      rw [findSpliceForLevelRec_advance s key kpfx level fuel start hadv,
        ih (s.getNext start level) hlast2,
        List.takeWhile_cons_of_pos hadv, List.dropWhile_cons_of_pos hadv,
        List.getLastD_cons]
    · have hadv' : advanceAt s key kpfx (s.getNext start level) = false := by
        simpa using hadv
      rw [findSpliceForLevelRec_stop s key kpfx level fuel start hadv']
      obtain ⟨t, ht⟩ := chainFrom_succ_cons s level fuel (s.getNext start level)
      rw [ht, List.takeWhile_cons_of_neg (by simp [hadv']),
        List.dropWhile_cons_of_neg (by simp [hadv'])]
      simp

/-- C1: for a call to findSpliceForLevel whose start node precedes the
target key at that level and whose walk reaches the tail, the result is
characterised by the walk: the loop advances past exactly the nodes that
are not the tail and whose prefix is below the target prefix or whose
prefix ties and whose key compares strictly less; the returned prev is the
last node not stopped at (start if none), next is its level-successor, the
first node stopped at (the tail, a node with strictly greater prefix, or a
prefix tie resolved by Compare), and found is true exactly when the stop
node is a non-tail prefix tie that Compare reports equal. -/
theorem findSpliceForLevel_walk_spec (s : Skiplist) (key : List ℕ)
    (kpfx level start : ℕ)
    (hterm : (chainFrom s level (s.nodes.length + 1)
        (s.getNext start level)).getLast? = some s.tail)
    (_hstart : start = s.head ∨ 0 < s.storage.cmp key (s.getKey start)) :
    findSpliceForLevel s key kpfx level start =
      (((chainFrom s level (s.nodes.length + 1)
          (s.getNext start level)).takeWhile (advanceAt s key kpfx)).getLastD start,
       ((chainFrom s level (s.nodes.length + 1)
          (s.getNext start level)).dropWhile (advanceAt s key kpfx)).headD s.tail,
       foundAt s key kpfx
         (((chainFrom s level (s.nodes.length + 1)
            (s.getNext start level)).dropWhile (advanceAt s key kpfx)).headD s.tail)) ∧
    s.getNext (findSpliceForLevel s key kpfx level start).1 level =
      (findSpliceForLevel s key kpfx level start).2.1 := by
  constructor
  · exact findSpliceForLevelRec_walk s key kpfx level (s.nodes.length + 1) start hterm
  · exact findSpliceForLevelRec_next_eq s key kpfx level (s.nodes.length + 1) start

/-- witness for the C1 theorem: searching level 0 of the three-key list for
the absent key [6] from the head. -/
theorem findSpliceForLevel_walk_spec_witness :
    (findSpliceForLevel testList3 [6] 0 0 testList3.head =
      (((chainFrom testList3 0 (testList3.nodes.length + 1)
          (testList3.getNext testList3.head 0)).takeWhile
            (advanceAt testList3 [6] 0)).getLastD testList3.head,
       ((chainFrom testList3 0 (testList3.nodes.length + 1)
          (testList3.getNext testList3.head 0)).dropWhile
            (advanceAt testList3 [6] 0)).headD testList3.tail,
       foundAt testList3 [6] 0
         (((chainFrom testList3 0 (testList3.nodes.length + 1)
            (testList3.getNext testList3.head 0)).dropWhile
              (advanceAt testList3 [6] 0)).headD testList3.tail)) ∧
    testList3.getNext (findSpliceForLevel testList3 [6] 0 0 testList3.head).1 0 =
      (findSpliceForLevel testList3 [6] 0 0 testList3.head).2.1) :=
  findSpliceForLevel_walk_spec testList3 [6] 0 0 testList3.head (by decide)
    (Or.inl rfl)


/-- helper: structural description of one splice search under the
structural invariant: the returned prev and next are adjacent in the level
walk, prev is the start node or one the loop advanced past, next is the
first node the loop stopped at, found is the foundAt test of next, prev is
the head or a live node of the level, and next is a live node of the level
or the tail. -/
theorem findSpliceForLevel_struct (s : Skiplist) (hS : StructOK s)
    (key : List ℕ) (kpfx l : ℕ) (hl : l < maxHeight) (start : ℕ)
    (hstart : start ∈ s.head :: interior s l) :
    ∃ A B, levelList s l =
        A ++ (findSpliceForLevel s key kpfx l start).1 ::
          (findSpliceForLevel s key kpfx l start).2.1 :: B ∧
      ((findSpliceForLevel s key kpfx l start).1 = start ∨
        advanceAt s key kpfx (findSpliceForLevel s key kpfx l start).1 = true) ∧
      advanceAt s key kpfx (findSpliceForLevel s key kpfx l start).2.1 = false ∧
      (findSpliceForLevel s key kpfx l start).2.2 =
        foundAt s key kpfx (findSpliceForLevel s key kpfx l start).2.1 ∧
      (findSpliceForLevel s key kpfx l start).1 ∈ s.head :: interior s l ∧
      ((findSpliceForLevel s key kpfx l start).2.1 ∈ interior s l ∨
        (findSpliceForLevel s key kpfx l start).2.1 = s.tail) := by
  obtain ⟨A0, B0, hsplit, hwalkB, hlastB, hmemB⟩ :=
    walk_setup s hS l hl start hstart
  have heng := findSpliceForLevelRec_walk s key kpfx l (s.nodes.length + 1)
    start (by rw [hwalkB]; exact hlastB)
  rw [hwalkB] at heng
  have htailmem : s.tail ∈ B0 := by
    obtain ⟨ys, hy⟩ := List.getLast?_eq_some_iff.mp hlastB
    rw [hy]
    simp
  have hdpne : B0.dropWhile (advanceAt s key kpfx) ≠ [] := by
    intro hdp
    have hBtk : B0 = B0.takeWhile (advanceAt s key kpfx) := by
      conv_lhs => rw [← List.takeWhile_append_dropWhile (advanceAt s key kpfx) B0]
      rw [hdp, List.append_nil]
    have hadv := List.mem_takeWhile_imp (hBtk ▸ htailmem)
    simp [advanceAt] at hadv
  obtain ⟨n0, B2, hdp⟩ := List.exists_cons_of_ne_nil hdpne
  have hres : findSpliceForLevel s key kpfx l start =
      ((B0.takeWhile (advanceAt s key kpfx)).getLastD start, n0,
        foundAt s key kpfx n0) := by
    unfold findSpliceForLevel
    rw [heng, hdp]
    rfl
  have hadvn : advanceAt s key kpfx n0 = false :=
    dropWhile_head_not (advanceAt s key kpfx) B0 n0 B2 hdp
  obtain ⟨C, hC⟩ := cons_getLastD_decomp start (B0.takeWhile (advanceAt s key kpfx))
  have hB0 : B0 = B0.takeWhile (advanceAt s key kpfx) ++
      B0.dropWhile (advanceAt s key kpfx) :=
    (List.takeWhile_append_dropWhile _ _).symm
  have hprev_cases :
      (B0.takeWhile (advanceAt s key kpfx)).getLastD start = start ∨
      ((B0.takeWhile (advanceAt s key kpfx)).getLastD start ∈
          B0.takeWhile (advanceAt s key kpfx) ∧
        advanceAt s key kpfx
          ((B0.takeWhile (advanceAt s key kpfx)).getLastD start) = true) := by
    by_cases hne2 : B0.takeWhile (advanceAt s key kpfx) = []
    · left
      rw [hne2]
      rfl
    · right
      have hmem := getLastD_mem (B0.takeWhile (advanceAt s key kpfx)) start hne2
      exact ⟨hmem, List.mem_takeWhile_imp hmem⟩
  refine ⟨A0 ++ C, B2, ?_, ?_, ?_, ?_, ?_, ?_⟩
  · rw [hsplit, hres]
    calc A0 ++ start :: B0
        = A0 ++ (start :: B0.takeWhile (advanceAt s key kpfx)) ++
            (n0 :: B2) := by
          conv_lhs => rw [hB0]
          rw [hdp]
          simp
      _ = (A0 ++ C) ++
            (B0.takeWhile (advanceAt s key kpfx)).getLastD start :: n0 :: B2 := by
          rw [hC]
          simp
  · rcases hprev_cases with h | h
    · left
      rw [hres]
      exact h
    · right
      rw [hres]
      exact h.2
  · rw [hres]
    exact hadvn
  · rw [hres]
  · rcases hprev_cases with h | h
    · have heq : (findSpliceForLevel s key kpfx l start).1 = start := by
        rw [hres]
        exact h
      rw [heq]
      exact hstart
    · have hmemB0 : (findSpliceForLevel s key kpfx l start).1 ∈ B0 := by
        rw [hres]
        exact (List.takeWhile_sublist _).mem h.1
      rcases hmemB _ hmemB0 with hm | hm
      · exact List.mem_cons_of_mem _ hm
      · exfalso
        have hadv2 := h.2
        have hm2 : (B0.takeWhile (advanceAt s key kpfx)).getLastD start =
            s.tail := by
          rw [hres] at hm
          exact hm
        rw [hm2] at hadv2
        simp [advanceAt] at hadv2
  · have hmemn0 : n0 ∈ B0 := by
      have hmemd : n0 ∈ B0.dropWhile (advanceAt s key kpfx) := by
        rw [hdp]
        simp
      exact (List.dropWhile_sublist _).mem hmemd
    rw [hres]
    exact hmemB n0 hmemn0

/-- helper: a live node of a level is live at every level below it. -/
theorem interior_sub (s : Skiplist) (hS : StructOK s) :
    ∀ l, l < maxHeight → ∀ lp ≤ l, ∀ nd ∈ interior s l, nd ∈ interior s lp := by
  intro l
  induction l with
  | zero =>
    intro _ lp hlp nd hm
    have : lp = 0 := by omega
    rw [this]
    exact hm
  | succ k ih =>
    intro hk lp hlp nd hm
    rcases Nat.eq_or_lt_of_le hlp with rfl | hlt
    · exact hm
    · have hmk : nd ∈ interior s k := hS.nested k hk nd hm
      exact ih (by omega) lp (by omega) nd hmk

/-- helper: structural description of the descending splice search of the
insertion algorithm: when no level reports a match, every level receives an
adjacent (predecessor, successor) pair of its level walk, the predecessor
being the head or a node the search advanced past, the successor a live
node at which the search stopped without a match, or the tail. -/
theorem findSplicesDown_struct (s : Skiplist) (hS : StructOK s)
    (key : List ℕ) (kpfx : ℕ) :
    ∀ lvl, lvl ≤ maxHeight → ∀ start,
      (∀ l < lvl, start ∈ s.head :: interior s l) →
      (start = s.head ∨ advanceAt s key kpfx start = true) →
      ∀ spl, findSplicesDown s key kpfx lvl start = some spl →
        spl.length = lvl ∧
        ∀ l, (hllvl : l < lvl) →
          (∃ A B, levelList s l =
            A ++ (spl.getD l default).1 :: (spl.getD l default).2 :: B) ∧
          (spl.getD l default).1 ∈ s.head :: interior s l ∧
          ((spl.getD l default).2 ∈ interior s l ∨
            (spl.getD l default).2 = s.tail) ∧
          advanceAt s key kpfx (spl.getD l default).2 = false ∧
          foundAt s key kpfx (spl.getD l default).2 = false ∧
          ((spl.getD l default).1 = s.head ∨
            advanceAt s key kpfx (spl.getD l default).1 = true) := by
  intro lvl
  induction lvl with
  | zero =>
    intro _ start _ _ spl hspl
    simp only [findSplicesDown, Option.some.injEq] at hspl
    subst hspl
    exact ⟨rfl, fun l hl => by omega⟩
  | succ lvl ih =>
    intro hle start hmem hstartadv spl hspl
    simp only [findSplicesDown] at hspl
    have hlvl : lvl < maxHeight := by omega
    obtain ⟨hA0, hB0, hadj, hprevadv, hadvn, hfoundeq, hprevmem, hnextmem⟩ :=
      findSpliceForLevel_struct s hS key kpfx lvl hlvl start
        (hmem lvl (by omega))
    cases hf : (findSpliceForLevel s key kpfx lvl start).2.2 with
    | true =>
      rw [hf] at hspl
      simp at hspl
    | false =>
      rw [hf] at hspl
      simp only [Bool.false_eq_true, if_false] at hspl
      cases hrec : findSplicesDown s key kpfx lvl
          (findSpliceForLevel s key kpfx lvl start).1 with
      | none =>
        rw [hrec] at hspl
        simp at hspl
      | some rest =>
        rw [hrec] at hspl
        simp only [Option.some.injEq] at hspl
        subst hspl
        have hmemrec : ∀ l < lvl,
            (findSpliceForLevel s key kpfx lvl start).1 ∈
              s.head :: interior s l := by
          intro l hl
          rcases List.mem_cons.mp hprevmem with hh | hh
          · rw [hh]
            exact List.mem_cons_self _ _
          · exact List.mem_cons_of_mem _
              (interior_sub s hS lvl hlvl l (by omega) _ hh)
        have hstartadvrec :
            (findSpliceForLevel s key kpfx lvl start).1 = s.head ∨
            advanceAt s key kpfx (findSpliceForLevel s key kpfx lvl start).1 =
              true := by
          rcases hprevadv with h | h
          · rcases hstartadv with h2 | h2
            · exact Or.inl (h.trans h2)
            · exact Or.inr (by rw [h]; exact h2)
          · exact Or.inr h
        obtain ⟨hlen, hrest⟩ := ih (by omega) _ hmemrec hstartadvrec rest hrec
        constructor
        · simp [hlen]
        · intro l hl
          rcases Nat.lt_or_ge l lvl with hcase | hcase
          · have hget : ((rest ++
                [((findSpliceForLevel s key kpfx lvl start).1,
                  (findSpliceForLevel s key kpfx lvl start).2.1)]).getD l
                    default) = rest.getD l default := by
              rw [List.getD_append]
              omega
            rw [hget]
            exact hrest l hcase
          · have hll : l = lvl := by omega
            subst hll
            have hget : ((rest ++
                [((findSpliceForLevel s key kpfx l start).1,
                  (findSpliceForLevel s key kpfx l start).2.1)]).getD l
                    default) =
                ((findSpliceForLevel s key kpfx l start).1,
                  (findSpliceForLevel s key kpfx l start).2.1) := by
              rw [List.getD_append_right _ _ _ _ (by omega)]
              rw [hlen]
              simp
            rw [hget]
            refine ⟨⟨hA0, hB0, hadj⟩, hprevmem, hnextmem, hadvn, ?_, hstartadvrec⟩
            rw [← hfoundeq]
            exact hf

/-! ## The initial skiplist -/

/-- helper: the fresh skiplist is the sentinel-linking fold applied to the
two-sentinel base state. -/
theorem newSkiplist_eq_fold (st : StorageModel) :
    newSkiplist st = (List.range maxHeight).foldl
      (fun s i => (s.setNext s.head i s.tail).setPrev s.tail i s.head)
      ⟨st, [⟨0, 0, List.replicate maxHeight default⟩,
            ⟨0, 0, List.replicate maxHeight default⟩], 0, 1, 1⟩ := by
  rfl

/-- helper: invariant of the sentinel-linking fold: the structure fields
stay fixed, link towers keep their lengths, the head's next pointers are
set to the tail up to the fold position, and the tail's prev pointers to
the head. -/
theorem initFold_facts (st : StorageModel) :
    ∀ k, k ≤ maxHeight →
      ((List.range k).foldl
        (fun s i => (s.setNext s.head i s.tail).setPrev s.tail i s.head)
        ⟨st, [⟨0, 0, List.replicate maxHeight default⟩,
              ⟨0, 0, List.replicate maxHeight default⟩], 0, 1, 1⟩ : Skiplist).head = 0 ∧
      ((List.range k).foldl
        (fun s i => (s.setNext s.head i s.tail).setPrev s.tail i s.head)
        ⟨st, [⟨0, 0, List.replicate maxHeight default⟩,
              ⟨0, 0, List.replicate maxHeight default⟩], 0, 1, 1⟩ : Skiplist).tail = 1 ∧
      ((List.range k).foldl
        (fun s i => (s.setNext s.head i s.tail).setPrev s.tail i s.head)
        ⟨st, [⟨0, 0, List.replicate maxHeight default⟩,
              ⟨0, 0, List.replicate maxHeight default⟩], 0, 1, 1⟩ : Skiplist).height = 1 ∧
      ((List.range k).foldl
        (fun s i => (s.setNext s.head i s.tail).setPrev s.tail i s.head)
        ⟨st, [⟨0, 0, List.replicate maxHeight default⟩,
              ⟨0, 0, List.replicate maxHeight default⟩], 0, 1, 1⟩ : Skiplist).storage = st ∧
      ((List.range k).foldl
        (fun s i => (s.setNext s.head i s.tail).setPrev s.tail i s.head)
        ⟨st, [⟨0, 0, List.replicate maxHeight default⟩,
              ⟨0, 0, List.replicate maxHeight default⟩], 0, 1, 1⟩ : Skiplist).nodes.length = 2 ∧
      (∀ x, (((List.range k).foldl
        (fun s i => (s.setNext s.head i s.tail).setPrev s.tail i s.head)
        ⟨st, [⟨0, 0, List.replicate maxHeight default⟩,
              ⟨0, 0, List.replicate maxHeight default⟩], 0, 1, 1⟩ : Skiplist).nodeAt x).links.length =
        ((⟨st, [⟨0, 0, List.replicate maxHeight default⟩,
              ⟨0, 0, List.replicate maxHeight default⟩], 0, 1, 1⟩ : Skiplist).nodeAt x).links.length) ∧
      (∀ i, ((List.range k).foldl
        (fun s i => (s.setNext s.head i s.tail).setPrev s.tail i s.head)
        ⟨st, [⟨0, 0, List.replicate maxHeight default⟩,
              ⟨0, 0, List.replicate maxHeight default⟩], 0, 1, 1⟩ : Skiplist).getNext 0 i =
        if i < k then 1 else 0) ∧
      (∀ i, ((List.range k).foldl
        (fun s i => (s.setNext s.head i s.tail).setPrev s.tail i s.head)
        ⟨st, [⟨0, 0, List.replicate maxHeight default⟩,
              ⟨0, 0, List.replicate maxHeight default⟩], 0, 1, 1⟩ : Skiplist).getPrev 1 i = 0) := by
  intro k
  induction k with
  | zero =>
    intro _
    refine ⟨rfl, rfl, rfl, rfl, rfl, fun x => rfl, fun i => ?_, fun i => ?_⟩
    · rw [if_neg (by omega)]
      unfold Skiplist.getNext Skiplist.nodeAt
      show ((([⟨0, 0, List.replicate maxHeight default⟩,
        ⟨0, 0, List.replicate maxHeight default⟩] : List SklNode).getD 0
          default).links.getD i default).next = 0
      rw [show (([⟨0, 0, List.replicate maxHeight default⟩,
        ⟨0, 0, List.replicate maxHeight default⟩] : List SklNode).getD 0 default) =
          ⟨0, 0, List.replicate maxHeight default⟩ from rfl]
      rw [getD_replicate]
      rfl
    · unfold Skiplist.getPrev Skiplist.nodeAt
      show ((([⟨0, 0, List.replicate maxHeight default⟩,
        ⟨0, 0, List.replicate maxHeight default⟩] : List SklNode).getD 1
          default).links.getD i default).prev = 0
      rw [show (([⟨0, 0, List.replicate maxHeight default⟩,
        ⟨0, 0, List.replicate maxHeight default⟩] : List SklNode).getD 1 default) =
          ⟨0, 0, List.replicate maxHeight default⟩ from rfl]
      rw [getD_replicate]
      rfl
  | succ k ih =>
    intro hk
    obtain ⟨h1, h2, h3, h4, h5, h6, h7, h8⟩ := ih (by omega)
    rw [List.range_succ, List.foldl_append, List.foldl_cons, List.foldl_nil]
    set Sk := (List.range k).foldl
      (fun s i => (s.setNext s.head i s.tail).setPrev s.tail i s.head)
      (⟨st, [⟨0, 0, List.replicate maxHeight default⟩,
            ⟨0, 0, List.replicate maxHeight default⟩], 0, 1, 1⟩ : Skiplist)
      with hSk
    rw [h1, h2]
    have hsp := setPrev_fields (Sk.setNext 0 k 1) 1 k 0
    have hsn := setNext_fields Sk 0 k 1
    refine ⟨hsp.1.trans (hsn.1.trans h1), hsp.2.1.trans (hsn.2.1.trans h2),
      hsp.2.2.1.trans (hsn.2.2.1.trans h3),
      hsp.2.2.2.1.trans (hsn.2.2.2.1.trans h4),
      hsp.2.2.2.2.trans (hsn.2.2.2.2.trans h5), ?_, ?_, ?_⟩
    · intro x
      rw [linksLen_setPrev, linksLen_setNext]
      exact h6 x
    · intro i
      rw [getNext_setPrev, getNext_setNext]
      by_cases hik : i = k
      · subst hik
        have hlk : i < (Sk.nodeAt 0).links.length := by
          rw [h6 0]
          show i < (List.replicate maxHeight (default : Links)).length
          simp only [List.length_replicate]
          omega
        rw [if_pos ⟨rfl, by omega, rfl, hlk⟩, if_pos (by omega)]
      · rw [if_neg (by tauto), h7 i]
        by_cases hlt : i < k
        · rw [if_pos hlt, if_pos (by omega)]
        · rw [if_neg hlt, if_neg (by omega)]
    · intro i
      rw [getPrev_setPrev, getPrev_setNext]
      split
      · rfl
      · exact h8 i

theorem newSkiplist_fields (st : StorageModel) :
    (newSkiplist st).head = 0 ∧ (newSkiplist st).tail = 1 ∧
    (newSkiplist st).height = 1 ∧ (newSkiplist st).storage = st ∧
    (newSkiplist st).nodes.length = 2 := by
  have h := initFold_facts st maxHeight (le_refl _)
  rw [newSkiplist_eq_fold st]
  exact ⟨h.1, h.2.1, h.2.2.1, h.2.2.2.1, h.2.2.2.2.1⟩

theorem newSkiplist_linksLen (st : StorageModel) (x : ℕ) (hx : x < 2) :
    ((newSkiplist st).nodeAt x).links.length = maxHeight := by
  have h := (initFold_facts st maxHeight (le_refl _)).2.2.2.2.2.1 x
  rw [newSkiplist_eq_fold st, h]
  interval_cases x
  · show (List.replicate maxHeight (default : Links)).length = maxHeight
    simp
  · show (List.replicate maxHeight (default : Links)).length = maxHeight
    simp

theorem newSkiplist_getNext_head (st : StorageModel) (l : ℕ) (hl : l < maxHeight) :
    (newSkiplist st).getNext 0 l = 1 := by
  have h := (initFold_facts st maxHeight (le_refl _)).2.2.2.2.2.2.1 l
  rw [newSkiplist_eq_fold st, h, if_pos hl]

theorem newSkiplist_getPrev_tail (st : StorageModel) (l : ℕ) (_hl : l < maxHeight) :
    (newSkiplist st).getPrev 1 l = 0 := by
  have h := (initFold_facts st maxHeight (le_refl _)).2.2.2.2.2.2.2 l
  rw [newSkiplist_eq_fold st, h]

theorem newSkiplist_levelList (st : StorageModel) (l : ℕ) (hl : l < maxHeight) :
    levelList (newSkiplist st) l = [0, 1] := by
  unfold levelList
  obtain ⟨hh, ht, -, -, hlen⟩ := newSkiplist_fields st
  rw [hlen, hh]
  simp only [chainFrom, ht]
  rw [if_neg (by omega), newSkiplist_getNext_head st l hl, if_pos rfl]

theorem newSkiplist_interior (st : StorageModel) (l : ℕ) (hl : l < maxHeight) :
    interior (newSkiplist st) l = [] := by
  unfold interior
  rw [newSkiplist_levelList st l hl]
  rfl

/-- helper: a fresh skiplist satisfies the structural invariant. -/
theorem newSkiplist_structOK (st : StorageModel) : StructOK (newSkiplist st) := by
  obtain ⟨hh, ht, hht, -, hlen⟩ := newSkiplist_fields st
  refine ⟨hh, ht, by omega, by rw [hht], ?_, ?_, ?_, ?_, ?_, ?_, ?_, ?_⟩
  · rw [hht]
    show 1 ≤ 20
    omega
  · rw [hh]
    exact newSkiplist_linksLen st 0 (by omega)
  · rw [ht]
    exact newSkiplist_linksLen st 1 (by omega)
  · intro l hl
    rw [newSkiplist_levelList st l hl, newSkiplist_interior st l hl, hh, ht]
    rfl
  · intro l hl
    rw [newSkiplist_interior st l hl]
    exact List.nodup_nil
  · intro l hl nd hnd
    rw [newSkiplist_interior st l hl] at hnd
    simp at hnd
  · intro l hl _
    exact newSkiplist_interior st l hl
  · intro l hl nd hnd
    rw [newSkiplist_interior st (l + 1) hl] at hnd
    simp at hnd

/-- helper: a fresh skiplist satisfies the ordering invariant. -/
theorem newSkiplist_sortedOK (st : StorageModel) : SortedOK (newSkiplist st) := by
  constructor
  · intro l hl
    rw [newSkiplist_interior st l hl]
    exact List.Pairwise.nil
  · intro nd hnd
    rw [newSkiplist_interior st 0 (by norm_num [maxHeight])] at hnd
    simp at hnd

/-! ## Helpers for the insertion proof -/

theorem getNext_oob (s : Skiplist) (x l : ℕ) (hx : s.nodes.length ≤ x) :
    s.getNext x l = 0 := by
  unfold Skiplist.getNext Skiplist.nodeAt
  rw [List.getD_eq_default _ _ hx]
  rfl

theorem levelList_mem_lt (s : Skiplist) (hS : StructOK s) (l : ℕ)
    (hl : l < maxHeight) : ∀ x ∈ levelList s l, x < s.nodes.length := by
  intro x hx
  rw [hS.shape l hl] at hx
  rcases List.mem_cons.mp hx with rfl | hx
  · rw [hS.head_eq]
    have := hS.two_le
    omega
  · rcases List.mem_append.mp hx with hx | hx
    · exact (hS.mem_bound l hl x hx).2.1
    · rw [List.mem_singleton.mp hx, hS.tail_eq]
      have := hS.two_le
      omega

theorem mem_interior_of_mem_levelList (s : Skiplist) (hS : StructOK s) (l : ℕ)
    (hl : l < maxHeight) (x : ℕ) (hx : x ∈ levelList s l) (hxh : x ≠ s.head)
    (hxt : x ≠ s.tail) : x ∈ interior s l := by
  rw [hS.shape l hl] at hx
  rcases List.mem_cons.mp hx with rfl | hx
  · exact absurd rfl hxh
  · rcases List.mem_append.mp hx with hx | hx
    · exact hx
    · exact absurd (List.mem_singleton.mp hx) hxt

theorem shape_decomp (L : List ℕ) (a b : ℕ) (h1 : L.head? = some a)
    (h2 : L.getLast? = some b) (hlen : 2 ≤ L.length) :
    L = a :: (((L.drop 1).dropLast) ++ [b]) := by
  cases L with
  | nil => simp at h1
  | cons x L1 =>
    simp only [List.head?_cons, Option.some.injEq] at h1
    subst h1
    cases L1 with
    | nil => simp at hlen
    | cons y L2 =>
      have hgl : (y :: L2).getLast (by simp) = b := by
        rw [getLast?_cons_ne_nil _ _ (by simp),
          List.getLast?_eq_getLast _ (by simp)] at h2
        simpa using h2
      have hd : (y :: L2).dropLast ++ [(y :: L2).getLast (by simp)] =
          y :: L2 := List.dropLast_append_getLast _
      rw [hgl] at hd
      simp only [List.drop_succ_cons, List.drop_zero]
      rw [List.cons.injEq]
      exact ⟨rfl, hd.symm⟩

theorem head?_append_cons (A : List ℕ) (x : ℕ) (X Y : List ℕ) :
    (A ++ x :: X).head? = (A ++ x :: Y).head? := by
  cases A <;> simp

theorem getLast?_append_cons (A : List ℕ) (x : ℕ) (X : List ℕ) :
    (A ++ x :: X).getLast? = (x :: X).getLast? := by
  rw [List.getLast?_append]
  have : (x :: X).getLast? ≠ none := by
    simp [List.getLast?_eq_none_iff]
  rcases he : (x :: X).getLast? with - | v
  · exact absurd he this
  · rfl

/-- helper: effect of allocating the new node and splicing it at levels
0..h-1 on the level walks: levels at or above h are unchanged; at each
level below h the new node appears between the predecessor and successor
that the descending search found there. -/
theorem splice_levelList (s : Skiplist) (hS : StructOK s) (key : List ℕ)
    (kpfx keyOff h : ℕ) (hh : h ≤ s.height)
    (spl : List (ℕ × ℕ))
    (hspl : findSplicesDown s key kpfx s.height s.head = some spl) :
    (∀ l, h ≤ l → l < maxHeight →
      levelList (spliceLevels (newNodeRec s h keyOff kpfx).2 s.nodes.length spl h)
        l = levelList s l) ∧
    (∀ l, l < h → ∃ A B,
      levelList s l = A ++ (spl.getD l default).1 :: (spl.getD l default).2 :: B ∧
      levelList (spliceLevels (newNodeRec s h keyOff kpfx).2 s.nodes.length spl h)
        l = A ++ (spl.getD l default).1 :: s.nodes.length ::
          (spl.getD l default).2 :: B) := by
  obtain ⟨hlenspl, hfacts⟩ := findSplicesDown_struct s hS key kpfx s.height
    hS.height_le s.head (fun l _ => List.mem_cons_self _ _) (Or.inl rfl) spl hspl
  have hf1 := newNodeRec_fields s h keyOff kpfx
  have hf2 := spliceLevels_fields (newNodeRec s h keyOff kpfx).2
    s.nodes.length spl
  have hN2 : 2 ≤ s.nodes.length := hS.two_le
  have htail2 : (spliceLevels (newNodeRec s h keyOff kpfx).2 s.nodes.length
      spl h).tail = s.tail := (hf2 h).2.1.trans hf1.2.2.1
  have hhead2 : (spliceLevels (newNodeRec s h keyOff kpfx).2 s.nodes.length
      spl h).head = s.head := (hf2 h).1.trans hf1.2.1
  have hlen2 : (spliceLevels (newNodeRec s h keyOff kpfx).2 s.nodes.length
      spl h).nodes.length = s.nodes.length + 1 :=
    (hf2 h).2.2.2.2.trans hf1.2.2.2.2.2
  constructor
  · intro l hge hl
    have hcongr : chainFrom (spliceLevels (newNodeRec s h keyOff kpfx).2
        s.nodes.length spl h) l (s.nodes.length + 2) s.head =
        chainFrom s l (s.nodes.length + 2) s.head := by
      apply chainFrom_congr s _ l htail2
      intro x hx
      rw [chainFrom_fuel_ge s l (s.nodes.length + 1) (s.nodes.length + 2)
        s.head (by omega) (levelList_getLast s hS l hl)] at hx
      have hxlt : x < s.nodes.length := levelList_mem_lt s hS l hl x hx
      rw [spliceLevels_getNext_ge _ _ _ h x l hge]
      exact newNodeRec_getNext_lt s h keyOff kpfx x l hxlt
    unfold levelList
    rw [hlen2, hhead2, hcongr,
      chainFrom_fuel_ge s l (s.nodes.length + 1) (s.nodes.length + 2)
        s.head (by omega) (levelList_getLast s hS l hl)]
  · intro l hlt
    have hl : l < maxHeight := by
      have := hS.height_le
      omega
    obtain ⟨⟨A, B, hadj⟩, hpmem, hnmem, -, -, -⟩ := hfacts l (by omega)
    have hplt : (spl.getD l default).1 < s.nodes.length := by
      rcases List.mem_cons.mp hpmem with hp | hp
      · rw [hp, hS.head_eq]
        omega
      · exact (hS.mem_bound l hl _ hp).2.1
    have hplinks : l < (s.nodeAt (spl.getD l default).1).links.length := by
      rcases List.mem_cons.mp hpmem with hp | hp
      · rw [hp, hS.head_links]
        have := hS.height_le
        omega
      · exact (hS.mem_bound l hl _ hp).2.2
    have hpne : (spl.getD l default).1 ≠ s.nodes.length := by omega
    have hndlinks : ((newNodeRec s h keyOff kpfx).2.nodeAt
        s.nodes.length).links.length = h := by
      rw [newNodeRec_nodeAt_self]
      simp
    have hp2 : (spliceLevels (newNodeRec s h keyOff kpfx).2 s.nodes.length
        spl h).getNext (spl.getD l default).1 l = s.nodes.length := by
      rw [spliceLevels_getNext_lt _ _ _ h _ l hlt, spliceOne_getNext]
      have hb1 : (spl.getD l default).1 <
          (newNodeRec s h keyOff kpfx).2.nodes.length := by
        rw [hf1.2.2.2.2.2]
        omega
      have hb2 : l < ((newNodeRec s h keyOff kpfx).2.nodeAt
          (spl.getD l default).1).links.length := by
        rw [newNodeRec_nodeAt_lt s h keyOff kpfx _ hplt]
        exact hplinks
      rw [if_pos ⟨rfl, hb1, rfl, hb2⟩]
    have hnd2 : (spliceLevels (newNodeRec s h keyOff kpfx).2 s.nodes.length
        spl h).getNext s.nodes.length l = (spl.getD l default).2 := by
      rw [spliceLevels_getNext_lt _ _ _ h _ l hlt, spliceOne_getNext]
      have hb1 : s.nodes.length <
          (newNodeRec s h keyOff kpfx).2.nodes.length := by
        rw [hf1.2.2.2.2.2]
        omega
      have hb2 : l < ((newNodeRec s h keyOff kpfx).2.nodeAt
          s.nodes.length).links.length := by
        rw [hndlinks]
        exact hlt
      rw [if_neg (by tauto), if_pos ⟨rfl, hb1, rfl, hb2⟩]
    have hother : ∀ x, x ≠ (spl.getD l default).1 → x ≠ s.nodes.length →
        (spliceLevels (newNodeRec s h keyOff kpfx).2 s.nodes.length
          spl h).getNext x l = s.getNext x l := by
      intro x hxp hxnd
      rw [spliceLevels_getNext_lt _ _ _ h _ l hlt, spliceOne_getNext,
        if_neg (by tauto), if_neg (by tauto)]
      rcases Nat.lt_or_ge x s.nodes.length with hx | hx
      · exact newNodeRec_getNext_lt s h keyOff kpfx x l hx
      · have hx1 : s.nodes.length + 1 ≤ x := by omega
        rw [getNext_oob _ x l (by rw [hf1.2.2.2.2.2]; omega),
          getNext_oob s x l (by omega)]
    have hndtail : s.nodes.length ≠ s.tail := by
      rw [hS.tail_eq]
      omega
    have hnodup : (A ++ (spl.getD l default).1 ::
        (spl.getD l default).2 :: B).Nodup := by
      rw [← hadj]
      exact levelList_nodup s hS l hl
    have hndmem : s.nodes.length ∉ A ++ (spl.getD l default).1 ::
        (spl.getD l default).2 :: B := by
      rw [← hadj]
      intro hmem
      have := levelList_mem_lt s hS l hl _ hmem
      omega
    have hsplice := chainFrom_splice s
      (spliceLevels (newNodeRec s h keyOff kpfx).2 s.nodes.length spl h) l
      s.nodes.length (spl.getD l default).1 (spl.getD l default).2 htail2
      hother hp2 hnd2 hndtail (s.nodes.length + 1) s.head A B hadj hnodup hndmem
    refine ⟨A, B, hadj, ?_⟩
    unfold levelList
    rw [hlen2, hhead2]
    exact hsplice

/-- helper: splicing the freshly allocated node at levels 0..h-1 preserves
the structural invariant. -/
theorem splice_structOK (s : Skiplist) (hS : StructOK s) (key : List ℕ)
    (kpfx keyOff h : ℕ) (hh : h ≤ s.height)
    (spl : List (ℕ × ℕ))
    (hspl : findSplicesDown s key kpfx s.height s.head = some spl) :
    StructOK (spliceLevels (newNodeRec s h keyOff kpfx).2 s.nodes.length
      spl h) := by
  obtain ⟨hge, hlt⟩ := splice_levelList s hS key kpfx keyOff h hh spl hspl
  have hf1 := newNodeRec_fields s h keyOff kpfx
  have hf2 := spliceLevels_fields (newNodeRec s h keyOff kpfx).2
    s.nodes.length spl
  have hlinks2 := spliceLevels_linksLen (newNodeRec s h keyOff kpfx).2
    s.nodes.length spl
  set s2 := spliceLevels (newNodeRec s h keyOff kpfx).2 s.nodes.length spl h
    with hs2
  have hN2 := hS.two_le
  have hhead2 : s2.head = s.head := (hf2 h).1.trans hf1.2.1
  have htail2 : s2.tail = s.tail := (hf2 h).2.1.trans hf1.2.2.1
  have hheight2 : s2.height = s.height := (hf2 h).2.2.1.trans hf1.2.2.2.1
  have hlen2 : s2.nodes.length = s.nodes.length + 1 :=
    (hf2 h).2.2.2.2.trans hf1.2.2.2.2.2
  have hlinks2s : ∀ x, x < s.nodes.length →
      (s2.nodeAt x).links.length = (s.nodeAt x).links.length := by
    intro x hx
    rw [hlinks2 h x, newNodeRec_nodeAt_lt s h keyOff kpfx x hx]
  have hlinksN : (s2.nodeAt s.nodes.length).links.length = h := by
    rw [hlinks2 h _, newNodeRec_nodeAt_self]
    simp
  have hint_ge : ∀ l, h ≤ l → l < maxHeight →
      interior s2 l = interior s l := by
    intro l hgel hl
    unfold interior
    rw [hge l hgel hl]
  have hmain : ∀ l, l < h →
      (levelList s2 l).Nodup ∧
      (levelList s2 l).head? = some s.head ∧
      (levelList s2 l).getLast? = some s.tail ∧
      2 ≤ (levelList s2 l).length ∧
      (∀ x ∈ levelList s2 l, x ∈ levelList s l ∨ x = s.nodes.length) ∧
      (∀ x ∈ levelList s l, x ∈ levelList s2 l) ∧
      s.nodes.length ∈ levelList s2 l := by
    intro l hltl
    have hl : l < maxHeight := by
      have := hS.height_le
      omega
    obtain ⟨A, B, hadjold, hadjnew⟩ := hlt l hltl
    refine ⟨?_, ?_, ?_, ?_, ?_, ?_, ?_⟩
    · rw [hadjnew]
      have e1 : A ++ (spl.getD l default).1 :: s.nodes.length ::
          (spl.getD l default).2 :: B =
          (A ++ [(spl.getD l default).1]) ++ s.nodes.length ::
            ((spl.getD l default).2 :: B) := by simp
      rw [e1, List.nodup_middle]
      have e2 : (A ++ [(spl.getD l default).1]) ++
          (spl.getD l default).2 :: B =
          A ++ (spl.getD l default).1 :: (spl.getD l default).2 :: B := by simp
      rw [e2, ← hadjold, List.nodup_cons]
      refine ⟨?_, levelList_nodup s hS l hl⟩
      intro hmem
      have := levelList_mem_lt s hS l hl _ hmem
      omega
    · rw [hadjnew, head?_append_cons A _ _ ((spl.getD l default).2 :: B),
        ← hadjold, hS.shape l hl]
      rfl
    · have e1 : A ++ (spl.getD l default).1 :: s.nodes.length ::
          (spl.getD l default).2 :: B =
          (A ++ [(spl.getD l default).1, s.nodes.length]) ++
            (spl.getD l default).2 :: B := by simp
      have e2 : A ++ (spl.getD l default).1 :: (spl.getD l default).2 :: B =
          (A ++ [(spl.getD l default).1]) ++ (spl.getD l default).2 :: B := by
        simp
      rw [hadjnew, e1, getLast?_append_cons]
      have hold := levelList_getLast s hS l hl
      rw [hadjold, e2, getLast?_append_cons] at hold
      exact hold
    · rw [hadjnew]
      simp only [List.length_append, List.length_cons]
      omega
    · intro x hx
      rw [hadjnew] at hx
      simp only [List.mem_append, List.mem_cons] at hx
      rw [hadjold]
      simp only [List.mem_append, List.mem_cons]
      tauto
    · intro x hx
      rw [hadjold] at hx
      simp only [List.mem_append, List.mem_cons] at hx
      rw [hadjnew]
      simp only [List.mem_append, List.mem_cons]
      tauto
    · rw [hadjnew]
      simp
  have hshape2 : ∀ l, l < maxHeight →
      levelList s2 l = s2.head :: (interior s2 l ++ [s2.tail]) := by
    intro l hl
    rcases Nat.lt_or_ge l h with hcase | hcase
    · obtain ⟨hnd, hhd, hgl, hln, -, -, -⟩ := hmain l hcase
      rw [hhead2, htail2]
      show levelList s2 l = s.head :: (((levelList s2 l).drop 1).dropLast ++
        [s.tail])
      exact shape_decomp _ _ _ hhd hgl hln
    · rw [hhead2, htail2, hge l hcase hl, hint_ge l hcase hl]
      exact hS.shape l hl
  have hnodup2 : ∀ l, l < maxHeight → (interior s2 l).Nodup := by
    intro l hl
    rcases Nat.lt_or_ge l h with hcase | hcase
    · have hnd := (hmain l hcase).1
      have hsub : List.Sublist (interior s2 l) (levelList s2 l) :=
        (List.dropLast_sublist _).trans (List.drop_sublist _ _)
      exact hnd.sublist hsub
    · rw [hint_ge l hcase hl]
      exact hS.nodup l hl
  have hint_ne : ∀ l, l < maxHeight → ∀ x ∈ interior s2 l,
      x ≠ s.head ∧ x ≠ s.tail := by
    intro l hl x hx
    have hndL : (s2.head :: (interior s2 l ++ [s2.tail])).Nodup := by
      rw [← hshape2 l hl]
      rcases Nat.lt_or_ge l h with hcase | hcase
      · exact (hmain l hcase).1
      · rw [hge l hcase hl]
        exact levelList_nodup s hS l hl
    rw [List.nodup_cons] at hndL
    constructor
    · intro hxh
      exact hndL.1 (by rw [hhead2, ← hxh]; exact List.mem_append_left _ hx)
    · intro hxt
      have hndA := hndL.2
      rw [List.nodup_append] at hndA
      exact hndA.2.2 hx (by rw [htail2]; simp [hxt])
  have hmem_int2 : ∀ l, l < maxHeight → ∀ x, x ∈ levelList s2 l →
      x ≠ s.head → x ≠ s.tail → x ∈ interior s2 l := by
    intro l hl x hx hxh hxt
    rw [hshape2 l hl] at hx
    rcases List.mem_cons.mp hx with rfl | hx
    · exact absurd hhead2 hxh
    · rcases List.mem_append.mp hx with hx | hx
      · exact hx
      · rw [List.mem_singleton.mp hx] at hxt
        exact absurd htail2 hxt
  have hchar : ∀ l, l < h → ∀ x,
      (x ∈ interior s2 l ↔ x ∈ interior s l ∨ x = s.nodes.length) := by
    intro l hcase x
    have hl : l < maxHeight := by
      have := hS.height_le
      omega
    obtain ⟨hnd, -, -, -, hfwd, hbwd, hNmem⟩ := hmain l hcase
    constructor
    · intro hx
      have hxL : x ∈ levelList s2 l := by
        rw [hshape2 l hl]
        exact List.mem_cons_of_mem _ (List.mem_append_left _ hx)
      obtain ⟨hxh, hxt⟩ := hint_ne l hl x hx
      rcases hfwd x hxL with hold | hN
      · exact Or.inl (mem_interior_of_mem_levelList s hS l hl x hold hxh hxt)
      · exact Or.inr hN
    · intro hx
      rcases hx with hx | rfl
      · have hb := hS.mem_bound l hl x hx
        have hxL : x ∈ levelList s l := by
          rw [hS.shape l hl]
          exact List.mem_cons_of_mem _ (List.mem_append_left _ hx)
        refine hmem_int2 l hl x (hbwd x hxL) ?_ ?_
        · rw [hS.head_eq]
          omega
        · rw [hS.tail_eq]
          omega
      · refine hmem_int2 l hl _ hNmem ?_ ?_
        · rw [hS.head_eq]
          omega
        · rw [hS.tail_eq]
          omega
  refine ⟨hhead2.trans hS.head_eq, htail2.trans hS.tail_eq, by omega,
    by rw [hheight2]; exact hS.height_pos, by rw [hheight2]; exact hS.height_le,
    ?_, ?_, hshape2, hnodup2, ?_, ?_, ?_⟩
  · rw [hhead2, hS.head_eq, hlinks2s 0 (by omega)]
    rw [← hS.head_eq]
    exact hS.head_links
  · rw [htail2, hS.tail_eq, hlinks2s 1 (by omega)]
    rw [← hS.tail_eq]
    exact hS.tail_links
  · intro l hl x hx
    rcases Nat.lt_or_ge l h with hcase | hcase
    · rcases (hchar l hcase x).mp hx with hold | rfl
      · have hb := hS.mem_bound l hl x hold
        exact ⟨hb.1, by omega, by rw [hlinks2s x hb.2.1]; exact hb.2.2⟩
      · refine ⟨by omega, by omega, ?_⟩
        rw [hlinksN]
        exact hcase
    · rw [hint_ge l hcase hl] at hx
      have hb := hS.mem_bound l hl x hx
      exact ⟨hb.1, by omega, by rw [hlinks2s x hb.2.1]; exact hb.2.2⟩
  · intro l hl hhl
    rw [hheight2] at hhl
    have hcase : h ≤ l := by omega
    rw [hint_ge l hcase hl]
    exact hS.empty_above l hl hhl
  · intro l hl x hx
    rcases Nat.lt_or_ge (l + 1) h with hcase | hcase
    · rcases (hchar (l + 1) hcase x).mp hx with hold | rfl
      · exact (hchar l (by omega) x).mpr
          (Or.inl (hS.nested l hl x hold))
      · exact (hchar l (by omega) _).mpr (Or.inr rfl)
    · rw [hint_ge (l + 1) hcase hl] at hx
      have hold := hS.nested l hl x hx
      rcases Nat.lt_or_ge l h with hcase2 | hcase2
      · exact (hchar l hcase2 x).mpr (Or.inl hold)
      · rw [hint_ge l hcase2 (by omega)]
        exact hold

/-- helper: closed form of `alloc` in the regime where the `uint32`
arithmetic does not wrap. -/
theorem alloc_eq (a : Arena) (size : ℕ) (hov : a.len + size < U32)
    (hcap : a.buf.length * 2 < U32) :
    a.alloc size =
      (a.len,
       if a.buf.length < a.len + size then
         { buf := a.buf.take a.len ++
             List.replicate
               ((if a.buf.length * 2 < a.len + size then a.len + size
                 else a.buf.length * 2) - a.len) 0,
           len := a.len + size }
       else { buf := a.buf, len := a.len + size }) := by
  have e1 : a.len % U32 = a.len := Nat.mod_eq_of_lt (by omega)
  have e2 : (a.len + size) % U32 = a.len + size := Nat.mod_eq_of_lt hov
  have e3 : a.buf.length * 2 % U32 = a.buf.length * 2 := Nat.mod_eq_of_lt hcap
  simp only [Arena.alloc, e1, e2, e3]
  split <;> rfl

/-- helper: the offset returned by `alloc` is the arena length and the new
length is the old length plus the requested size, in the regime where the
`uint32` arithmetic does not wrap. -/
theorem alloc_len (a : Arena) (size : ℕ) (hov : a.len + size < U32) :
    (a.alloc size).1 = a.len ∧ ((a.alloc size).2).len = a.len + size := by
  have e1 : a.len % U32 = a.len := Nat.mod_eq_of_lt (by omega)
  have e2 : (a.len + size) % U32 = a.len + size := Nat.mod_eq_of_lt hov
  simp only [Arena.alloc, e1, e2]
  split <;> simp

/-- C6 (amended): alloc returns the arena's current length as the offset;
offsets of successive allocations are strictly increasing when the sizes are
positive; on growth the new capacity is twice the old capacity, or exactly
the needed size if doubling is insufficient; and every byte previously
stored at an already-issued offset reads back unchanged at that same
offset. -/
theorem alloc_spec (a : Arena) (size size2 : ℕ)
    (hlen : a.len ≤ a.buf.length)
    (hov : a.len + size + size2 < U32)
    (hcap : a.buf.length * 2 < U32) :
    (a.alloc size).1 = a.len ∧
    ((a.alloc size).2).len = a.len + size ∧
    (0 < size → (a.alloc size).1 < (((a.alloc size).2).alloc size2).1) ∧
    (a.buf.length < a.len + size →
      ((a.alloc size).2).buf.length =
        if a.buf.length * 2 < a.len + size then a.len + size
        else a.buf.length * 2) ∧
    (∀ i < a.len, ((a.alloc size).2).read i = a.read i) := by
  obtain ⟨hoff, hlen2⟩ := alloc_len a size (by omega)
  obtain ⟨hoff2, _⟩ := alloc_len ((a.alloc size).2) size2 (by omega)
  have heq := alloc_eq a size (by omega) hcap
  refine ⟨hoff, hlen2, ?_, ?_, ?_⟩
  · intro hpos
    rw [hoff, hoff2, hlen2]
    omega
  · intro hgrow
    rw [heq]
    simp only [if_pos hgrow]
    split <;> simp only [List.length_append, List.length_take,
      List.length_replicate] <;> omega
  · intro i hi
    rw [heq]
    unfold Arena.read
    split
    · simp only
      rw [List.getD_append _ _ _ _ (by simp; omega), getD_take_of_lt _ _ _ _ hi]
    · rfl

/-- witness for the C6 theorem at a concrete arena: three stored bytes, an
allocation of 5 bytes that forces the capacity to double from 4 to 8. -/
theorem alloc_spec_witness :
    ((Arena.mk [7, 8, 9, 0] 3).alloc 5).1 = 3 ∧
    (((Arena.mk [7, 8, 9, 0] 3).alloc 5).2).len = 8 ∧
    (0 < 5 → ((Arena.mk [7, 8, 9, 0] 3).alloc 5).1 <
      ((((Arena.mk [7, 8, 9, 0] 3).alloc 5).2).alloc 2).1) ∧
    ((Arena.mk [7, 8, 9, 0] 3).buf.length < 3 + 5 →
      (((Arena.mk [7, 8, 9, 0] 3).alloc 5).2).buf.length =
        if (Arena.mk [7, 8, 9, 0] 3).buf.length * 2 < 3 + 5 then 3 + 5
        else (Arena.mk [7, 8, 9, 0] 3).buf.length * 2) ∧
    (∀ i < 3, (((Arena.mk [7, 8, 9, 0] 3).alloc 5).2).read i =
      (Arena.mk [7, 8, 9, 0] 3).read i) := by
  have h := alloc_spec (Arena.mk [7, 8, 9, 0] 3) 5 2 (by decide)
    (by decide) (by decide)
  simpa using h

/-- counterexample to C6 as stated: a zero-size allocation leaves the length
unchanged, so two successive calls `alloc(0)` both return offset 0 - the
same offset is issued twice, hence offsets are not strictly increasing and
are reused. -/
theorem alloc_zero_size_offset_reused :
    ((mkArena 256).alloc 0).1 = 0 ∧ (((mkArena 256).alloc 0).2.alloc 0).1 = 0 := by
  have e : (mkArena 256).len = 0 := rfl
  obtain ⟨h1, h2⟩ := alloc_len (mkArena 256) 0 (by rw [e]; norm_num [U32])
  obtain ⟨h3, -⟩ := alloc_len ((mkArena 256).alloc 0).2 0 (by rw [h2, e]; norm_num [U32])
  refine ⟨by rw [h1, e], by rw [h3, h2, e]⟩

/-- C9: NewSkiplist silently raises an initial capacity hint below 256 to
256; the arena's initial backing capacity is max(initBufSize, 256) and its
length is 0, for every integer hint including zero and negative ones (no
error path exists). -/
theorem newSkiplist_initial_capacity (z : ℤ) :
    ((mkArena z).buf.length : ℤ) = max z 256 ∧ (mkArena z).len = 0 := by
  refine ⟨?_, rfl⟩
  simp only [mkArena, List.length_replicate]
  rcases le_or_lt (256 : ℤ) z with h | h
  · rw [if_neg (by omega), max_eq_left h, Int.toNat_of_nonneg (by omega)]
  · rw [if_pos h, max_eq_right h.le]
    norm_num

/-- C5: newNode succeeds exactly when 1 ≤ height ≤ 20 (the panic covers
height < 1 or height > 20); on success it allocates exactly
maxNodeSize - (maxHeight - height) * linksSize bytes, which equals the
fixed 16-byte header (key offset word plus padding plus prefix) plus
`height` link pairs, and is strictly less than a full max-height node
whenever height < maxHeight. -/
theorem newNode_guard_and_size (a : Arena) (height : ℕ)
    (hov : a.len + maxNodeSize < U32) :
    ((newNodeArena a height).isSome ↔ 1 ≤ height ∧ height ≤ maxHeight) ∧
    (∀ r, newNodeArena a height = some r →
      r.2.len = a.len + (maxNodeSize - (maxHeight - height) * linksSize)) ∧
    (height ≤ maxHeight →
      newNodeSize height = (maxNodeSize - maxHeight * linksSize) + height * linksSize) ∧
    (height < maxHeight → newNodeSize height < maxNodeSize) := by
  refine ⟨?_, ?_, ?_, ?_⟩
  · unfold newNodeArena
    split <;> rename_i hcond <;> simp <;> omega
  · intro r hr
    unfold newNodeArena at hr
    split at hr
    · exact absurd hr (by simp)
    · rename_i hcond
      have hsz : newNodeSize height ≤ maxNodeSize := by
        unfold newNodeSize; omega
      obtain ⟨-, hlen2⟩ := alloc_len a (newNodeSize height) (by omega)
      simp only [Option.some.injEq] at hr
      rw [hr] at hlen2
      rw [hlen2]
      rfl
  · intro hle
    unfold newNodeSize maxNodeSize maxHeight linksSize at *
    omega
  · intro hlt
    unfold newNodeSize maxNodeSize maxHeight linksSize at *
    omega

/-- witness for the C5 theorem: a fresh 256-byte arena and height 3; the
guard accepts 3 and the allocation is 40 = 176 - 17 * 8 bytes. -/
theorem newNode_guard_and_size_witness :
    ((newNodeArena (mkArena 256) 3).isSome ↔ 1 ≤ 3 ∧ 3 ≤ maxHeight) ∧
    (∀ r, newNodeArena (mkArena 256) 3 = some r →
      r.2.len = (mkArena 256).len + (maxNodeSize - (maxHeight - 3) * linksSize)) ∧
    (3 ≤ maxHeight →
      newNodeSize 3 = (maxNodeSize - maxHeight * linksSize) + 3 * linksSize) ∧
    (3 < maxHeight → newNodeSize 3 < maxNodeSize) :=
  newNode_guard_and_size (mkArena 256) 3 (by decide)

/-! ## The height draw (C4) -/

/-- helper: full characterisation of the scan loop of `randomHeight`
starting from level `h`, for any fuel that lets the loop run to its own
stopping condition. -/
theorem randomHeightAux_spec (rnd : ℕ) :
    ∀ fuel h, maxHeight ≤ h + fuel →
    h ≤ randomHeightAux rnd fuel h ∧
    (h ≤ maxHeight → randomHeightAux rnd fuel h ≤ maxHeight) ∧
    (randomHeightAux rnd fuel h < maxHeight →
      probabilities.getD (randomHeightAux rnd fuel h) 0 < rnd) ∧
    (∀ j, h ≤ j → j < randomHeightAux rnd fuel h →
      rnd ≤ probabilities.getD j 0) := by
  intro fuel
  induction fuel with
  | zero =>
    intro h hle
    simp only [randomHeightAux]
    exact ⟨le_refl h, fun x => x, fun hlt => by omega, fun j h1 h2 => by omega⟩
  | succ fuel ih =>
    intro h hle
    simp only [randomHeightAux]
    split
    · rename_i hc
      obtain ⟨ih1, ih2, ih3, ih4⟩ := ih (h + 1) (by omega)
      refine ⟨by omega, fun _ => ih2 (by omega), ih3, ?_⟩
      intro j hj1 hj2
      rcases Nat.eq_or_lt_of_le hj1 with rfl | hlt
      · exact hc.2
      · exact ih4 j hlt hj2
    · rename_i hc
      refine ⟨le_refl h, fun x => x, fun hlt => by omega, fun j h1 h2 => by omega⟩

/-- helper: a table entry is determined as a floor of 4294967295·e^(-i) by
rational bounds on e taken from `Real.exp_one_near_20`. -/
theorem prob_floor_entry (i n : ℕ)
    (h1 : (n : ℝ) * (363916618873 / 133877442384 + 1 / 10 ^ 20) ^ i ≤ 4294967295)
    (h2 : (4294967295 : ℝ) < ((n : ℝ) + 1) * (363916618873 / 133877442384 - 1 / 10 ^ 20) ^ i) :
    Nat.floor ((4294967295 : ℝ) * ((Real.exp 1)⁻¹) ^ i) = n := by
  have hnear := Real.exp_one_near_20
  rw [abs_le] at hnear
  have hub : Real.exp 1 ≤ 363916618873 / 133877442384 + 1 / 10 ^ 20 := by
    linarith [hnear.2]
  have hlb : (363916618873 : ℝ) / 133877442384 - 1 / 10 ^ 20 ≤ Real.exp 1 := by
    linarith [hnear.1]
  have hlb0 : (0 : ℝ) < 363916618873 / 133877442384 - 1 / 10 ^ 20 := by norm_num
  have hE : (0 : ℝ) < Real.exp 1 := Real.exp_pos 1
  have hEpow : (0 : ℝ) < Real.exp 1 ^ i := pow_pos hE i
  have hx : (4294967295 : ℝ) * ((Real.exp 1)⁻¹) ^ i = 4294967295 / Real.exp 1 ^ i := by
    rw [inv_pow]
    ring
  rw [hx, Nat.floor_eq_iff (by positivity)]
  constructor
  · rw [le_div_iff₀ hEpow]
    calc (n : ℝ) * Real.exp 1 ^ i
        ≤ (n : ℝ) * (363916618873 / 133877442384 + 1 / 10 ^ 20) ^ i :=
          mul_le_mul_of_nonneg_left (pow_le_pow_left₀ hE.le hub i) (Nat.cast_nonneg n)
      _ ≤ 4294967295 := h1
  · rw [div_lt_iff₀ hEpow]
    calc (4294967295 : ℝ)
        < ((n : ℝ) + 1) * (363916618873 / 133877442384 - 1 / 10 ^ 20) ^ i := h2
      _ ≤ ((n : ℝ) + 1) * Real.exp 1 ^ i :=
          mul_le_mul_of_nonneg_left (pow_le_pow_left₀ hlb0.le hlb i) (by positivity)

/-- helper: every entry of the probabilities table equals
⌊4294967295 · (1/e)^i⌋. -/
theorem probabilities_eq_floor : ∀ i < maxHeight,
    probabilities.getD i 0 = Nat.floor ((4294967295 : ℝ) * ((Real.exp 1)⁻¹) ^ i) := by
  intro i hi
  have hi20 : i < 20 := hi
  interval_cases i
  · exact (prob_floor_entry 0 4294967295 (by norm_num) (by norm_num)).symm
  · exact (prob_floor_entry 1 1580030168 (by norm_num) (by norm_num)).symm
  · exact (prob_floor_entry 2 581260615 (by norm_num) (by norm_num)).symm
  · exact (prob_floor_entry 3 213833830 (by norm_num) (by norm_num)).symm
  · exact (prob_floor_entry 4 78665070 (by norm_num) (by norm_num)).symm
  · exact (prob_floor_entry 5 28939261 (by norm_num) (by norm_num)).symm
  · exact (prob_floor_entry 6 10646159 (by norm_num) (by norm_num)).symm
  · exact (prob_floor_entry 7 3916503 (by norm_num) (by norm_num)).symm
  · exact (prob_floor_entry 8 1440801 (by norm_num) (by norm_num)).symm
  · exact (prob_floor_entry 9 530041 (by norm_num) (by norm_num)).symm
  · exact (prob_floor_entry 10 194991 (by norm_num) (by norm_num)).symm
  · exact (prob_floor_entry 11 71733 (by norm_num) (by norm_num)).symm
  · exact (prob_floor_entry 12 26389 (by norm_num) (by norm_num)).symm
  · exact (prob_floor_entry 13 9708 (by norm_num) (by norm_num)).symm
  · exact (prob_floor_entry 14 3571 (by norm_num) (by norm_num)).symm
  · exact (prob_floor_entry 15 1313 (by norm_num) (by norm_num)).symm
  · exact (prob_floor_entry 16 483 (by norm_num) (by norm_num)).symm
  · exact (prob_floor_entry 17 177 (by norm_num) (by norm_num)).symm
  · exact (prob_floor_entry 18 65 (by norm_num) (by norm_num)).symm
  · exact (prob_floor_entry 19 24 (by norm_num) (by norm_num)).symm

/-- C4: randomHeight scans the 20-entry table with its one uniform 32-bit
draw as input: the returned height h satisfies 1 ≤ h ≤ 20, h is the
smallest level in [1, 20) with rnd > probabilities[h] (or 20 when no such
level exists), and every table entry is ⌊4294967295 · (1/e)^i⌋ (the table
is a fixed constant of the model, built once and never mutated). -/
theorem randomHeight_spec (rnd : ℕ) (_hrnd : rnd < U32) :
    1 ≤ randomHeight rnd ∧ randomHeight rnd ≤ maxHeight ∧
    (randomHeight rnd < maxHeight →
      probabilities.getD (randomHeight rnd) 0 < rnd) ∧
    (∀ j, 1 ≤ j → j < randomHeight rnd → rnd ≤ probabilities.getD j 0) ∧
    (∀ i < maxHeight,
      probabilities.getD i 0 = Nat.floor ((4294967295 : ℝ) * ((Real.exp 1)⁻¹) ^ i)) := by
  obtain ⟨h1, h2, h3, h4⟩ := randomHeightAux_spec rnd maxHeight 1 (by omega)
  exact ⟨h1, h2 (by norm_num [maxHeight]), h3, h4, probabilities_eq_floor⟩

/-! ## Insertion preserves the structural invariant -/

/-- helper: the realized height is always between 1 and maxHeight. -/
theorem randomHeight_bounds (rnd : ℕ) :
    1 ≤ randomHeight rnd ∧ randomHeight rnd ≤ maxHeight := by
  obtain ⟨h1, h2, -, -⟩ := randomHeightAux_spec rnd maxHeight 1 (by omega)
  exact ⟨h1, h2 (by norm_num [maxHeight])⟩

/-- helper: the level walk ignores the `height` field. -/
theorem levelList_raise (s : Skiplist) (h l : ℕ) :
    levelList { s with height := h } l = levelList s l :=
  chainFrom_congr s { s with height := h } l rfl (s.nodes.length + 1) s.head
    (fun _ _ => rfl)

/-- helper: raising the active height preserves the structural invariant. -/
theorem raise_structOK (s : Skiplist) (hS : StructOK s) (h : ℕ)
    (hge : s.height ≤ h) (hle : h ≤ maxHeight) :
    StructOK { s with height := h } := by
  have hint : ∀ l, interior { s with height := h } l = interior s l := by
    intro l
    unfold interior
    rw [levelList_raise]
  refine ⟨hS.head_eq, hS.tail_eq, hS.two_le,
    le_trans hS.height_pos hge, hle, hS.head_links, hS.tail_links,
    ?_, ?_, ?_, ?_, ?_⟩
  · intro l hl
    rw [levelList_raise, hint]
    exact hS.shape l hl
  · intro l hl
    rw [hint]
    exact hS.nodup l hl
  · intro l hl x hx
    rw [hint] at hx
    exact hS.mem_bound l hl x hx
  · intro l hl hhl
    rw [hint]
    exact hS.empty_above l hl (le_trans hge hhl)
  · intro l hl x hx
    rw [hint] at hx ⊢
    exact hS.nested l hl x hx

/-- helper: insertion preserves the structural invariant on both the
success path and the duplicate-error path. -/
theorem insert_structOK (s0 : Skiplist) (hS : StructOK s0) (keyOff rnd : ℕ) :
    StructOK (insert s0 keyOff rnd).1 := by
  obtain ⟨hb1, hb2⟩ := randomHeight_bounds rnd
  set s := if s0.height < randomHeight rnd then
    { s0 with height := randomHeight rnd } else s0 with hsdef
  have hS1 : StructOK s := by
    rw [hsdef]
    by_cases hcond : s0.height < randomHeight rnd
    · rw [if_pos hcond]
      exact raise_structOK s0 hS _ (le_of_lt hcond) hb2
    · rw [if_neg hcond]
      exact hS
  have hh : randomHeight rnd ≤ s.height := by
    rw [hsdef]
    by_cases hcond : s0.height < randomHeight rnd
    · rw [if_pos hcond]
    · rw [if_neg hcond]
      omega
  show StructOK ((match findSplicesDown s (s0.storage.get keyOff)
      (s0.storage.pfxOf (s0.storage.get keyOff)) s.height s.head with
    | none => (s, some InsertError.recordExists)
    | some spl =>
      (spliceLevels (newNodeRec s (randomHeight rnd) keyOff
          (s0.storage.pfxOf (s0.storage.get keyOff))).2
        (newNodeRec s (randomHeight rnd) keyOff
          (s0.storage.pfxOf (s0.storage.get keyOff))).1 spl
        (randomHeight rnd), none)).1)
  cases hfs : findSplicesDown s (s0.storage.get keyOff)
      (s0.storage.pfxOf (s0.storage.get keyOff)) s.height s.head with
  | none => exact hS1
  | some spl =>
    exact splice_structOK s hS1 (s0.storage.get keyOff)
      (s0.storage.pfxOf (s0.storage.get keyOff)) keyOff (randomHeight rnd)
      hh spl hfs

/-! ## Insertion preserves the ordering invariant -/

/-- helper: the full level walk is pairwise "ascending", where the head
relates to everything and everything relates to the tail. -/
theorem levelList_pairwise (s : Skiplist) (hS : StructOK s) (hSrt : SortedOK s)
    (l : ℕ) (hl : l < maxHeight) :
    (levelList s l).Pairwise (fun a b => a = s.head ∨ b = s.tail ∨
      lexCmp (keyAt s a) (keyAt s b) = -1) := by
  rw [hS.shape l hl]
  refine List.Pairwise.cons (fun b _ => Or.inl rfl) ?_
  rw [List.pairwise_append]
  refine ⟨(hSrt.sorted l hl).imp (fun hr => Or.inr (Or.inr hr)), by simp, ?_⟩
  intro a _ b hb
  exact Or.inr (Or.inl (List.mem_singleton.mp hb))

/-- helper: a node the splice search advances past has key strictly below
the target key. -/
theorem advance_lt (s : Skiplist) (hSrt : SortedOK s)
    (hL : StorageModel.Lawful s.storage) (key : List ℕ) (kpfx : ℕ)
    (hkp : kpfx = s.storage.pfxOf key) (nd : ℕ) (hmem : nd ∈ interior s 0)
    (hadv : advanceAt s key kpfx nd = true) :
    lexCmp (keyAt s nd) key = -1 := by
  unfold advanceAt at hadv
  by_cases h1 : nd = s.tail
  · rw [if_pos h1] at hadv
    exact absurd hadv (by simp)
  rw [if_neg h1] at hadv
  by_cases h2 : kpfx < s.getKeyPfx nd
  · rw [if_pos h2] at hadv
    exact absurd hadv (by simp)
  rw [if_neg h2] at hadv
  by_cases h3 : kpfx = s.getKeyPfx nd
  · rw [if_pos h3] at hadv
    have hc : 0 < s.storage.cmp key (s.getKey nd) := of_decide_eq_true hadv
    have hsgn := hL.1 key (s.getKey nd)
    rw [Int.sign_eq_one_iff_pos.mpr hc] at hsgn
    have hk : s.storage.get (s.getKey nd) = keyAt s nd := rfl
    rw [hk] at hsgn
    rw [lexCmp_swap key (keyAt s nd), ← hsgn]
  · rw [if_neg h3] at hadv
    have h4 : s.getKeyPfx nd < kpfx := by omega
    apply hL.2
    have hp2 : s.getKeyPfx nd = s.storage.pfxOf (keyAt s nd) :=
      hSrt.pfx_ok nd hmem
    rw [← hp2, ← hkp]
    exact h4

/-- helper: a live node at which the splice search stops without a match has
key strictly above the target key. -/
theorem stop_gt (s : Skiplist) (hS : StructOK s) (hSrt : SortedOK s)
    (hL : StorageModel.Lawful s.storage) (key : List ℕ) (kpfx : ℕ)
    (hkp : kpfx = s.storage.pfxOf key) (nd : ℕ) (hmem : nd ∈ interior s 0)
    (hadv : advanceAt s key kpfx nd = false)
    (hfnd : foundAt s key kpfx nd = false) :
    lexCmp key (keyAt s nd) = -1 := by
  have h1 : nd ≠ s.tail := by
    have hb := (hS.mem_bound 0 (by decide) nd hmem).1
    have hte := hS.tail_eq
    omega
  unfold advanceAt at hadv
  rw [if_neg h1] at hadv
  by_cases h2 : kpfx < s.getKeyPfx nd
  · apply hL.2
    have hp2 : s.getKeyPfx nd = s.storage.pfxOf (keyAt s nd) :=
      hSrt.pfx_ok nd hmem
    rw [← hp2, ← hkp]
    exact h2
  rw [if_neg h2] at hadv
  by_cases h3 : kpfx = s.getKeyPfx nd
  · rw [if_pos h3] at hadv
    have hc1 : ¬ (0 < s.storage.cmp key (s.getKey nd)) := by
      intro hc
      rw [decide_eq_true hc] at hadv
      exact absurd hadv (by simp)
    have hc2 : s.storage.cmp key (s.getKey nd) ≠ 0 := by
      intro hc
      have hfT : foundAt s key kpfx nd = true := by
        unfold foundAt
        rw [decide_eq_true h1, decide_eq_true h3, decide_eq_true hc]
        rfl
      rw [hfT] at hfnd
      exact absurd hfnd (by simp)
    have hc3 : s.storage.cmp key (s.getKey nd) < 0 := by omega
    have hsgn := hL.1 key (s.getKey nd)
    rw [Int.sign_eq_neg_one_iff_neg.mpr hc3] at hsgn
    have hk : s.storage.get (s.getKey nd) = keyAt s nd := rfl
    rw [hk] at hsgn
    exact hsgn.symm
  · rw [if_neg h3] at hadv
    exact absurd hadv (by simp)

/-- helper: around the adjacent pair at which the splice search stops at a
level, every node on the predecessor side other than the head has key
strictly below the target, and every node on the successor side other than
the tail has key strictly above the target. -/
theorem search_bracket (s : Skiplist) (hS : StructOK s) (hSrt : SortedOK s)
    (hL : StorageModel.Lawful s.storage) (key : List ℕ) (kpfx l : ℕ)
    (hkp : kpfx = s.storage.pfxOf key) (hl : l < maxHeight)
    (p n : ℕ) (A B : List ℕ) (hadj : levelList s l = A ++ p :: n :: B)
    (hpmem : p ∈ s.head :: interior s l)
    (hpadv : p = s.head ∨ advanceAt s key kpfx p = true)
    (hnmem : n ∈ interior s l ∨ n = s.tail)
    (hnadv : advanceAt s key kpfx n = false)
    (hnfnd : foundAt s key kpfx n = false) :
    (∀ x ∈ A ++ [p], x = s.head ∨ lexCmp (keyAt s x) key = -1) ∧
    (∀ y ∈ n :: B, y = s.tail ∨ lexCmp key (keyAt s y) = -1) := by
  have hnd := levelList_nodup s hS l hl
  have hpw := levelList_pairwise s hS hSrt l hl
  have hre : A ++ p :: n :: B = (A ++ [p]) ++ n :: B := by simp
  rw [hadj, hre] at hnd hpw
  rw [List.pairwise_append] at hpw
  obtain ⟨hpwA, hpwB, hcross⟩ := hpw
  have hpA : p = s.head → A = [] := by
    intro hph
    cases A with
    | nil => rfl
    | cons a A2 =>
      exfalso
      have hhd : (levelList s l).head? = some s.head := by
        rw [hS.shape l hl]
        rfl
      rw [hadj] at hhd
      simp only [List.cons_append, List.head?_cons, Option.some.injEq] at hhd
      simp only [List.cons_append, List.nodup_cons] at hnd
      exact hnd.1 (by
        rw [hhd, ← hph]
        exact List.mem_append_left _ (List.mem_append_right _
          (List.mem_singleton_self p)))
  have hnB : n = s.tail → B = [] := by
    intro hnt
    cases B with
    | nil => rfl
    | cons b B2 =>
      exfalso
      have hlast : (levelList s l).getLast? = some s.tail :=
        levelList_getLast s hS l hl
      rw [hadj] at hlast
      have he : A ++ p :: n :: b :: B2 = (A ++ [p, n]) ++ b :: B2 := by simp
      rw [he, getLast?_append_cons] at hlast
      obtain ⟨ys, hys⟩ := List.getLast?_eq_some_iff.mp hlast
      have hnsub : List.Sublist (n :: b :: B2) ((A ++ [p]) ++ n :: b :: B2) :=
        List.sublist_append_right _ _
      have hnd2 := hnd.sublist hnsub
      rw [List.nodup_cons] at hnd2
      exact hnd2.1 (by rw [hnt, hys]; simp)
  constructor
  · intro x hx
    by_cases hph : p = s.head
    · rw [hpA hph] at hx
      simp only [List.nil_append, List.mem_singleton] at hx
      subst hx
      exact Or.inl hph
    · have hpint : p ∈ interior s l := (List.mem_cons.mp hpmem).resolve_left hph
      have hpint0 : p ∈ interior s 0 :=
        interior_sub s hS l hl 0 (by omega) p hpint
      have hpadv2 : advanceAt s key kpfx p = true := hpadv.resolve_left hph
      have hplt := advance_lt s hSrt hL key kpfx hkp p hpint0 hpadv2
      rcases List.mem_append.mp hx with hxA | hxp
      · rw [List.pairwise_append] at hpwA
        have hRxp := hpwA.2.2 x hxA p (List.mem_singleton_self p)
        rcases hRxp with hxh | hpt | hxlt
        · exact Or.inl hxh
        · exact absurd hpt (mem_head_interior_ne_tail s hS l hl p hpmem)
        · exact Or.inr (lexCmp_trans _ _ _ hxlt hplt)
      · rw [List.mem_singleton] at hxp
        subst hxp
        exact Or.inr hplt
  · intro y hy
    rcases hnmem with hnint | hnt
    · have hnint0 : n ∈ interior s 0 :=
        interior_sub s hS l hl 0 (by omega) n hnint
      have hngt := stop_gt s hS hSrt hL key kpfx hkp n hnint0 hnadv hnfnd
      rcases List.mem_cons.mp hy with rfl | hyB
      · exact Or.inr hngt
      · rw [List.pairwise_cons] at hpwB
        have hRny := hpwB.1 y hyB
        rcases hRny with hnh | hyt | hnylt
        · exfalso
          have hb := (hS.mem_bound l hl n hnint).1
          have hhe := hS.head_eq
          omega
        · exact Or.inl hyt
        · exact Or.inr (lexCmp_trans _ _ _ hngt hnylt)
    · rw [hnB hnt] at hy
      simp only [List.mem_singleton] at hy
      subst hy
      exact Or.inl hnt

/-- helper: splicing the freshly allocated node preserves the ordering
invariant. -/
theorem splice_sortedOK (s : Skiplist) (hS : StructOK s) (hSrt : SortedOK s)
    (hL : StorageModel.Lawful s.storage) (key : List ℕ) (kpfx keyOff h : ℕ)
    (hkey : key = s.storage.get keyOff) (hkp : kpfx = s.storage.pfxOf key)
    (h1 : 1 ≤ h) (hh : h ≤ s.height) (spl : List (ℕ × ℕ))
    (hspl : findSplicesDown s key kpfx s.height s.head = some spl) :
    SortedOK (spliceLevels (newNodeRec s h keyOff kpfx).2 s.nodes.length
      spl h) := by
  have hS2 := splice_structOK s hS key kpfx keyOff h hh spl hspl
  obtain ⟨hge, hlt⟩ := splice_levelList s hS key kpfx keyOff h hh spl hspl
  have hf1 := newNodeRec_fields s h keyOff kpfx
  have hf2 := spliceLevels_fields (newNodeRec s h keyOff kpfx).2
    s.nodes.length spl
  set s2 := spliceLevels (newNodeRec s h keyOff kpfx).2 s.nodes.length spl h
    with hs2
  have hstor : s2.storage = s.storage := (hf2 h).2.2.2.1.trans hf1.2.2.2.2.1
  have hgk : ∀ x, x < s.nodes.length → s2.getKey x = s.getKey x := by
    intro x hx
    rw [hs2, spliceLevels_getKey, newNodeRec_getKey_lt s h keyOff kpfx x hx]
  have hgkN : s2.getKey s.nodes.length = keyOff := by
    rw [hs2, spliceLevels_getKey]
    show ((newNodeRec s h keyOff kpfx).2.nodeAt s.nodes.length).key = keyOff
    rw [newNodeRec_nodeAt_self]
  have hgp : ∀ x, x < s.nodes.length →
      (s2.nodeAt x).pfx = (s.nodeAt x).pfx := by
    intro x hx
    show s2.getKeyPfx x = s.getKeyPfx x
    rw [hs2, spliceLevels_getKeyPfx, newNodeRec_getKeyPfx_lt s h keyOff kpfx x hx]
  have hgpN : (s2.nodeAt s.nodes.length).pfx = kpfx := by
    show s2.getKeyPfx s.nodes.length = kpfx
    rw [hs2, spliceLevels_getKeyPfx]
    show ((newNodeRec s h keyOff kpfx).2.nodeAt s.nodes.length).pfx = kpfx
    rw [newNodeRec_nodeAt_self]
  have hkeyAt : ∀ x, x < s.nodes.length → keyAt s2 x = keyAt s x := by
    intro x hx
    unfold keyAt
    rw [hstor, hgk x hx]
  have hkeyAtN : keyAt s2 s.nodes.length = key := by
    unfold keyAt
    rw [hstor, hgkN]
    exact hkey.symm
  obtain ⟨hsplen, hfacts⟩ := findSplicesDown_struct s hS key kpfx s.height
    hS.height_le s.head (fun l _ => List.mem_cons_self _ _) (Or.inl rfl)
    spl hspl
  constructor
  · intro l hlmax
    rcases Nat.lt_or_ge l h with hcase | hcase
    · obtain ⟨A, B, hadjold, hadjnew⟩ := hlt l hcase
      obtain ⟨-, hpmem, hnmem, hnadv, hnfnd, hpadv⟩ := hfacts l (by omega)
      obtain ⟨hα, hβ⟩ := search_bracket s hS hSrt hL key kpfx l hkp hlmax
        (spl.getD l default).1 (spl.getD l default).2 A B hadjold hpmem hpadv
        hnmem hnadv hnfnd
      have hmemolt := levelList_mem_lt s hS l hlmax
      have hpwold := levelList_pairwise s hS hSrt l hlmax
      have hre : A ++ (spl.getD l default).1 :: (spl.getD l default).2 :: B =
          (A ++ [(spl.getD l default).1]) ++ (spl.getD l default).2 :: B := by
        simp
      rw [hadjold, hre, List.pairwise_append] at hpwold
      obtain ⟨hpwA, hpwB, hcross⟩ := hpwold
      have hmemA : ∀ x ∈ A ++ [(spl.getD l default).1],
          x < s.nodes.length := by
        intro x hx
        refine hmemolt x ?_
        rw [hadjold, hre]
        exact List.mem_append_left _ hx
      have hmemB : ∀ y ∈ (spl.getD l default).2 :: B,
          y < s.nodes.length := by
        intro y hy
        refine hmemolt y ?_
        rw [hadjold, hre]
        exact List.mem_append_right _ hy
      have hnew : (levelList s2 l).Pairwise (fun a b => a = s.head ∨
          b = s.tail ∨ lexCmp (keyAt s2 a) (keyAt s2 b) = -1) := by
        rw [hadjnew]
        have hre2 : A ++ (spl.getD l default).1 :: s.nodes.length ::
            (spl.getD l default).2 :: B =
            (A ++ [(spl.getD l default).1]) ++ s.nodes.length ::
              (spl.getD l default).2 :: B := by
          simp
        rw [hre2, List.pairwise_append]
        refine ⟨?_, ?_, ?_⟩
        · refine hpwA.imp_of_mem ?_
          intro a b ha hb hR
          rcases hR with hr | hr | hr
          · exact Or.inl hr
          · exact Or.inr (Or.inl hr)
          · exact Or.inr (Or.inr (by
              rw [hkeyAt a (hmemA a ha), hkeyAt b (hmemA b hb)]
              exact hr))
        · refine List.Pairwise.cons ?_ ?_
          · intro y hy
            rcases hβ y hy with hr | hr
            · exact Or.inr (Or.inl hr)
            · exact Or.inr (Or.inr (by
                rw [hkeyAtN, hkeyAt y (hmemB y hy)]
                exact hr))
          · refine hpwB.imp_of_mem ?_
            intro a b ha hb hR
            rcases hR with hr | hr | hr
            · exact Or.inl hr
            · exact Or.inr (Or.inl hr)
            · exact Or.inr (Or.inr (by
                rw [hkeyAt a (hmemB a ha), hkeyAt b (hmemB b hb)]
                exact hr))
        · intro a ha b hb
          rcases List.mem_cons.mp hb with rfl | hb2
          · rcases hα a ha with hr | hr
            · exact Or.inl hr
            · exact Or.inr (Or.inr (by
                rw [hkeyAt a (hmemA a ha), hkeyAtN]
                exact hr))
          · rcases hcross a ha b hb2 with hr | hr | hr
            · exact Or.inl hr
            · exact Or.inr (Or.inl hr)
            · exact Or.inr (Or.inr (by
                rw [hkeyAt a (hmemA a ha), hkeyAt b (hmemB b hb2)]
                exact hr))
      have hsub : List.Sublist (interior s2 l) (levelList s2 l) :=
        (List.dropLast_sublist _).trans (List.drop_sublist _ _)
      refine (hnew.sublist hsub).imp_of_mem ?_
      intro a b ha hb hR
      rcases hR with hr | hr | hr
      · exfalso
        have hba := (hS2.mem_bound l hlmax a ha).1
        have hhe := hS.head_eq
        omega
      · exfalso
        have hbb := (hS2.mem_bound l hlmax b hb).1
        have hte := hS.tail_eq
        omega
      · exact hr
    · have hinteq : interior s2 l = interior s l := by
        unfold interior
        rw [hge l hcase hlmax]
      rw [hinteq]
      refine (hSrt.sorted l hlmax).imp_of_mem ?_
      intro a b ha hb hR
      have hba := hS.mem_bound l hlmax a ha
      have hbb := hS.mem_bound l hlmax b hb
      rw [hkeyAt a hba.2.1, hkeyAt b hbb.2.1]
      exact hR
  · intro nd hnd
    have h20 : (0:ℕ) < maxHeight := by decide
    obtain ⟨A, B, hadjold, hadjnew⟩ := hlt 0 h1
    have hndL : nd ∈ levelList s2 0 := by
      rw [hS2.shape 0 h20]
      exact List.mem_cons_of_mem _ (List.mem_append_left _ hnd)
    rw [hadjnew] at hndL
    have hcases : nd ∈ levelList s 0 ∨ nd = s.nodes.length := by
      rw [hadjold]
      simp only [List.mem_append, List.mem_cons] at hndL ⊢
      tauto
    have hb2 := hS2.mem_bound 0 h20 nd hnd
    rcases hcases with hold | rfl
    · have hne1 : nd ≠ s.head := by
        have hhe := hS.head_eq
        have hbnd := hb2.1
        omega
      have hne2 : nd ≠ s.tail := by
        have hte := hS.tail_eq
        have hbnd := hb2.1
        omega
      have hnint : nd ∈ interior s 0 := mem_interior_of_mem_levelList s hS 0
        h20 nd hold hne1 hne2
      have hltn : nd < s.nodes.length := (hS.mem_bound 0 h20 nd hnint).2.1
      rw [hgp nd hltn, hstor, hkeyAt nd hltn]
      exact hSrt.pfx_ok nd hnint
    · rw [hgpN, hstor, hkeyAtN]
      exact hkp

/-- helper: raising the active height preserves the ordering invariant. -/
theorem raise_sortedOK (s : Skiplist) (hSrt : SortedOK s) (h : ℕ) :
    SortedOK { s with height := h } := by
  have hint : ∀ l, interior { s with height := h } l = interior s l := by
    intro l
    unfold interior
    rw [levelList_raise]
  constructor
  · intro l hl
    rw [hint]
    exact hSrt.sorted l hl
  · intro nd hnd
    rw [hint] at hnd
    exact hSrt.pfx_ok nd hnd

/-- helper: insertion preserves the ordering invariant. -/
theorem insert_sortedOK (s0 : Skiplist) (hS : StructOK s0) (hSrt : SortedOK s0)
    (hL : StorageModel.Lawful s0.storage) (keyOff rnd : ℕ) :
    SortedOK (insert s0 keyOff rnd).1 := by
  obtain ⟨hb1, hb2⟩ := randomHeight_bounds rnd
  set s := if s0.height < randomHeight rnd then
    { s0 with height := randomHeight rnd } else s0 with hsdef
  have hS1 : StructOK s := by
    rw [hsdef]
    by_cases hcond : s0.height < randomHeight rnd
    · rw [if_pos hcond]
      exact raise_structOK s0 hS _ (le_of_lt hcond) hb2
    · rw [if_neg hcond]
      exact hS
  have hSrt1 : SortedOK s := by
    rw [hsdef]
    by_cases hcond : s0.height < randomHeight rnd
    · rw [if_pos hcond]
      exact raise_sortedOK s0 hSrt _
    · rw [if_neg hcond]
      exact hSrt
  have hL1 : StorageModel.Lawful s.storage := by
    rw [hsdef]
    by_cases hcond : s0.height < randomHeight rnd
    · simp only [if_pos hcond]
      exact hL
    · simp only [if_neg hcond]
      exact hL
  have hh : randomHeight rnd ≤ s.height := by
    rw [hsdef]
    by_cases hcond : s0.height < randomHeight rnd
    · simp only [if_pos hcond]
      exact le_refl _
    · simp only [if_neg hcond]
      omega
  have hkeyeq : s0.storage.get keyOff = s.storage.get keyOff := by
    rw [hsdef]
    by_cases hcond : s0.height < randomHeight rnd
    · simp only [if_pos hcond]
    · simp only [if_neg hcond]
  have hkpeq : s0.storage.pfxOf (s0.storage.get keyOff) =
      s.storage.pfxOf (s0.storage.get keyOff) := by
    rw [hsdef]
    by_cases hcond : s0.height < randomHeight rnd
    · simp only [if_pos hcond]
    · simp only [if_neg hcond]
  show SortedOK ((match findSplicesDown s (s0.storage.get keyOff)
      (s0.storage.pfxOf (s0.storage.get keyOff)) s.height s.head with
    | none => (s, some InsertError.recordExists)
    | some spl =>
      (spliceLevels (newNodeRec s (randomHeight rnd) keyOff
          (s0.storage.pfxOf (s0.storage.get keyOff))).2
        (newNodeRec s (randomHeight rnd) keyOff
          (s0.storage.pfxOf (s0.storage.get keyOff))).1 spl
        (randomHeight rnd), none)).1)
  cases hfs : findSplicesDown s (s0.storage.get keyOff)
      (s0.storage.pfxOf (s0.storage.get keyOff)) s.height s.head with
  | none => exact hSrt1
  | some spl =>
    exact splice_sortedOK s hS1 hSrt1 hL1 (s0.storage.get keyOff)
      (s0.storage.pfxOf (s0.storage.get keyOff)) keyOff (randomHeight rnd)
      hkeyeq hkpeq hb1 hh spl hfs

/-- helper: insertion never changes the storage reference. -/
theorem insert_storage (s0 : Skiplist) (keyOff rnd : ℕ) :
    (insert s0 keyOff rnd).1.storage = s0.storage := by
  set s := if s0.height < randomHeight rnd then
    { s0 with height := randomHeight rnd } else s0 with hsdef
  have hst : s.storage = s0.storage := by
    rw [hsdef]
    by_cases hcond : s0.height < randomHeight rnd
    · simp only [if_pos hcond]
    · simp only [if_neg hcond]
  show ((match findSplicesDown s (s0.storage.get keyOff)
      (s0.storage.pfxOf (s0.storage.get keyOff)) s.height s.head with
    | none => (s, some InsertError.recordExists)
    | some spl =>
      (spliceLevels (newNodeRec s (randomHeight rnd) keyOff
          (s0.storage.pfxOf (s0.storage.get keyOff))).2
        (newNodeRec s (randomHeight rnd) keyOff
          (s0.storage.pfxOf (s0.storage.get keyOff))).1 spl
        (randomHeight rnd), none)).1).storage = s0.storage
  cases hfs : findSplicesDown s (s0.storage.get keyOff)
      (s0.storage.pfxOf (s0.storage.get keyOff)) s.height s.head with
  | none => exact hst
  | some spl =>
    have h2 := (spliceLevels_fields (newNodeRec s (randomHeight rnd) keyOff
      (s0.storage.pfxOf (s0.storage.get keyOff))).2 s.nodes.length spl
      (randomHeight rnd)).2.2.2.1
    have h3 := (newNodeRec_fields s (randomHeight rnd) keyOff
      (s0.storage.pfxOf (s0.storage.get keyOff))).2.2.2.2.1
    exact (h2.trans h3).trans hst

/-- helper: any sequence of insertions preserves the structural invariant. -/
theorem insertAll_structOK (s : Skiplist) (hS : StructOK s)
    (ops : List (ℕ × ℕ)) : StructOK (insertAll s ops) := by
  induction ops generalizing s with
  | nil => exact hS
  | cons op ops ih =>
    show StructOK (insertAll (insert s op.1 op.2).1 ops)
    exact ih (insert s op.1 op.2).1 (insert_structOK s hS op.1 op.2)

/-- helper: any sequence of insertions over a lawful storage preserves both
invariants and the storage reference. -/
theorem insertAll_inv (s : Skiplist) (hS : StructOK s) (hSrt : SortedOK s)
    (hL : StorageModel.Lawful s.storage) (ops : List (ℕ × ℕ)) :
    StructOK (insertAll s ops) ∧ SortedOK (insertAll s ops) ∧
    (insertAll s ops).storage = s.storage := by
  induction ops generalizing s with
  | nil => exact ⟨hS, hSrt, rfl⟩
  | cons op ops ih =>
    have h1 := insert_structOK s hS op.1 op.2
    have h2 := insert_sortedOK s hS hSrt hL op.1 op.2
    have h3 := insert_storage s op.1 op.2
    have h4 : StorageModel.Lawful (insert s op.1 op.2).1.storage := by
      rw [h3]
      exact hL
    have hrec := ih (insert s op.1 op.2).1 h1 h2 h4
    exact ⟨hrec.1, hrec.2.1, hrec.2.2.trans h3⟩

/-- helper: when a node whose key equals the target is already live at
level 0, the descending splice search reports a match. -/
theorem no_splice_of_dup (s : Skiplist) (hS : StructOK s) (hSrt : SortedOK s)
    (hL : StorageModel.Lawful s.storage) (key : List ℕ) (kpfx : ℕ)
    (hkp : kpfx = s.storage.pfxOf key) (d : ℕ) (hd : d ∈ interior s 0)
    (hdk : lexCmp key (keyAt s d) = 0) :
    findSplicesDown s key kpfx s.height s.head = none := by
  cases hfs : findSplicesDown s key kpfx s.height s.head with
  | none => rfl
  | some spl =>
    exfalso
    obtain ⟨hsplen, hfacts⟩ := findSplicesDown_struct s hS key kpfx s.height
      hS.height_le s.head (fun l _ => List.mem_cons_self _ _) (Or.inl rfl)
      spl hfs
    obtain ⟨⟨A, B, hadj⟩, hpmem, hnmem, hnadv, hnfnd, hpadv⟩ :=
      hfacts 0 hS.height_pos
    obtain ⟨hα, hβ⟩ := search_bracket s hS hSrt hL key kpfx 0 hkp (by decide)
      (spl.getD 0 default).1 (spl.getD 0 default).2 A B hadj hpmem hpadv
      hnmem hnadv hnfnd
    have hdL : d ∈ levelList s 0 := by
      rw [hS.shape 0 (by decide)]
      exact List.mem_cons_of_mem _ (List.mem_append_left _ hd)
    rw [hadj] at hdL
    have hdmem : d ∈ A ++ [(spl.getD 0 default).1] ∨
        d ∈ (spl.getD 0 default).2 :: B := by
      simp only [List.mem_append, List.mem_cons] at hdL ⊢
      tauto
    have hdh : d ≠ s.head := by
      have hb := (hS.mem_bound 0 (by decide) d hd).1
      have hhe := hS.head_eq
      omega
    have hdt : d ≠ s.tail := by
      have hb := (hS.mem_bound 0 (by decide) d hd).1
      have hte := hS.tail_eq
      omega
    rcases hdmem with hdm | hdm
    · rcases hα d hdm with hr | hr
      · exact hdh hr
      · have hz : lexCmp (keyAt s d) key = 0 := by
          rw [lexCmp_swap key (keyAt s d), hdk]
          rfl
        omega
    · rcases hβ d hdm with hr | hr
      · exact hdt hr
      · omega

/-- helper: the concrete test storage satisfies the Storage contract. -/
theorem testStorage_lawful : StorageModel.Lawful testStorage := by
  constructor
  · intro a o
    show (lexCmp a [o]).sign = lexCmp a [o]
    rcases lexCmp_cases a [o] with hc | hc | hc <;> rw [hc] <;> rfl
  · intro a b hab
    have hz : (0:ℕ) < 0 := hab
    exact absurd hz (lt_irrefl 0)

/-- helper: the three-record fixture list satisfies both invariants and
keeps the test storage. -/
theorem testList3_inv : StructOK testList3 ∧ SortedOK testList3 ∧
    testList3.storage = testStorage := by
  have h0 := newSkiplist_structOK testStorage
  have h1 := newSkiplist_sortedOK testStorage
  have h2 : StorageModel.Lawful (newSkiplist testStorage).storage := by
    rw [(newSkiplist_fields testStorage).2.2.2.1]
    exact testStorage_lawful
  have h3 := insertAll_inv (newSkiplist testStorage) h0 h1 h2
    [(5, 4294967295), (3, 1580030168), (8, 0)]
  exact ⟨h3.1, h3.2.1,
    h3.2.2.trans (newSkiplist_fields testStorage).2.2.2.1⟩

/-! ## Frame and call-trace properties of the splice search (C10, C7) -/

/-- helper: the state-threaded splice search leaves the state unchanged and
computes the same result as the pure model. -/
theorem findSpliceForLevelStRec_frame (key : List ℕ) (kpfx level : ℕ) :
    ∀ fuel prev s,
      (findSpliceForLevelStRec key kpfx level fuel prev s).2 = s ∧
      (findSpliceForLevelStRec key kpfx level fuel prev s).1 =
        (findSpliceForLevelRec s key kpfx level fuel prev).1 := by
  intro fuel
  induction fuel with
  | zero => exact fun prev s => ⟨rfl, rfl⟩
  | succ fuel ih =>
    intro prev s
    simp only [findSpliceForLevelStRec, findSpliceForLevelRec, readNext,
      readKeyPfx, readKey, readCmp]
    split
    · exact ⟨rfl, rfl⟩
    · split
      · exact ⟨rfl, rfl⟩
      · split
        · split
          · exact ⟨rfl, rfl⟩
          · split
            · exact ⟨rfl, rfl⟩
            · exact ⟨(ih _ s).1, (ih _ s).2⟩
        · exact ⟨(ih _ s).1, (ih _ s).2⟩

/-- C10: findSpliceForLevel performs no mutation: threading the receiver
state through every node access and Compare call of the walk returns the
state identically (arena record contents, head, tail and height all
unchanged), with the same result as the pure model, whether or not the key
is found. -/
theorem findSpliceForLevel_no_mutation (s : Skiplist) (key : List ℕ)
    (kpfx level start : ℕ) :
    (findSpliceForLevelSt s key kpfx level start).2 = s ∧
    (findSpliceForLevelSt s key kpfx level start).1 =
      findSpliceForLevel s key kpfx level start := by
  unfold findSpliceForLevelSt findSpliceForLevel
  exact findSpliceForLevelStRec_frame key kpfx level (s.nodes.length + 1) start s

/-- helper: every node in the Compare call trace of the splice search is a
non-tail node whose cached prefix equals the target prefix. -/
theorem findSpliceForLevelRec_calls (s : Skiplist) (key : List ℕ)
    (kpfx level : ℕ) :
    ∀ fuel prev,
      ∀ nd ∈ (findSpliceForLevelRec s key kpfx level fuel prev).2,
        nd ≠ s.tail ∧ s.getKeyPfx nd = kpfx := by
  intro fuel
  induction fuel with
  | zero => intro prev nd h; simp [findSpliceForLevelRec] at h
  | succ fuel ih =>
    intro prev nd h
    simp only [findSpliceForLevelRec] at h
    split at h
    · simp at h
    · rename_i htail
      split at h
      · simp at h
      · split at h
        · rename_i hpfx
          split at h
          · simp only [List.mem_singleton] at h
            exact h ▸ ⟨htail, hpfx.symm⟩
          · split at h
            · simp only [List.mem_singleton] at h
              exact h ▸ ⟨htail, hpfx.symm⟩
            · simp only [List.mem_cons] at h
              rcases h with rfl | h
              · exact ⟨htail, hpfx.symm⟩
              · exact ih _ _ h
        · exact ih _ _ h

/-- C7: during splice search, Storage.Compare is invoked on a candidate
next node only when that node is not the tail sentinel and its cached
prefix equals the target prefix; whenever the prefixes differ the walk
advances or stops on the prefix comparison alone, with no Storage call. -/
theorem compare_called_only_on_equal_pfx (s : Skiplist) (key : List ℕ)
    (kpfx level start : ℕ) :
    ∀ nd ∈ findSpliceCmpCalls s key kpfx level start,
      nd ≠ s.tail ∧ s.getKeyPfx nd = kpfx := by
  unfold findSpliceCmpCalls
  exact findSpliceForLevelRec_calls s key kpfx level (s.nodes.length + 1) start

/-- witness for the C7 theorem: in the fixture list, the walk for the key
[6] at level 0 invokes Compare on node 3, a live node whose cached prefix
equals the target prefix 0. -/
theorem compare_called_only_on_equal_pfx_witness :
    3 ∈ findSpliceCmpCalls testList3 [6] 0 0 testList3.head ∧
    (3 ≠ testList3.tail ∧ testList3.getKeyPfx 3 = 0) :=
  ⟨by decide, compare_called_only_on_equal_pfx testList3 [6] 0 0
    testList3.head 3 (by decide)⟩

/-- witness for the C4 theorem at the concrete draw 123456789. -/
theorem randomHeight_spec_witness :
    1 ≤ randomHeight 123456789 ∧ randomHeight 123456789 ≤ maxHeight ∧
    (randomHeight 123456789 < maxHeight →
      probabilities.getD (randomHeight 123456789) 0 < 123456789) ∧
    (∀ j, 1 ≤ j → j < randomHeight 123456789 → 123456789 ≤ probabilities.getD j 0) ∧
    (∀ i < maxHeight,
      probabilities.getD i 0 = Nat.floor ((4294967295 : ℝ) * ((Real.exp 1)⁻¹) ^ i)) :=
  randomHeight_spec 123456789 (by norm_num [U32])

/-! ## Duplicate insertion, global sortedness and sentinel linkage
(C2, C3, C8) -/

/-- C2: on a structurally sound, sorted list over a lawful storage,
inserting a key that compares equal under Storage.Compare to a key already
live in the list fails with the distinguished duplicate error
ErrRecordExists, performs no link mutation and never overwrites (the node
records are exactly as before the call), and leaves the traversal of every
level, in particular the level-0 traversal and the node count,
unchanged. -/
theorem insert_duplicate_spec (s0 : Skiplist) (hS : StructOK s0)
    (hSrt : SortedOK s0) (hL : StorageModel.Lawful s0.storage)
    (keyOff rnd : ℕ)
    (hdup : ∃ d ∈ interior s0 0,
      s0.storage.cmp (s0.storage.get keyOff) (s0.getKey d) = 0) :
    (insert s0 keyOff rnd).2 = some InsertError.recordExists ∧
    (insert s0 keyOff rnd).1.nodes = s0.nodes ∧
    (∀ l, levelList (insert s0 keyOff rnd).1 l = levelList s0 l) := by
  obtain ⟨d, hd, hdc⟩ := hdup
  obtain ⟨hb1, hb2⟩ := randomHeight_bounds rnd
  set s := if s0.height < randomHeight rnd then
    { s0 with height := randomHeight rnd } else s0 with hsdef
  have hS1 : StructOK s := by
    rw [hsdef]
    by_cases hcond : s0.height < randomHeight rnd
    · rw [if_pos hcond]
      exact raise_structOK s0 hS _ (le_of_lt hcond) hb2
    · rw [if_neg hcond]
      exact hS
  have hSrt1 : SortedOK s := by
    rw [hsdef]
    by_cases hcond : s0.height < randomHeight rnd
    · rw [if_pos hcond]
      exact raise_sortedOK s0 hSrt _
    · rw [if_neg hcond]
      exact hSrt
  have hL1 : StorageModel.Lawful s.storage := by
    rw [hsdef]
    by_cases hcond : s0.height < randomHeight rnd
    · simp only [if_pos hcond]
      exact hL
    · simp only [if_neg hcond]
      exact hL
  have hstor : s.storage = s0.storage := by
    rw [hsdef]
    by_cases hcond : s0.height < randomHeight rnd
    · simp only [if_pos hcond]
    · simp only [if_neg hcond]
  have hnodes : s.nodes = s0.nodes := by
    rw [hsdef]
    by_cases hcond : s0.height < randomHeight rnd
    · simp only [if_pos hcond]
    · simp only [if_neg hcond]
  have hlev : ∀ l, levelList s l = levelList s0 l := by
    intro l
    rw [hsdef]
    by_cases hcond : s0.height < randomHeight rnd
    · simp only [if_pos hcond]
      exact levelList_raise s0 (randomHeight rnd) l
    · simp only [if_neg hcond]
  have hint0 : interior s 0 = interior s0 0 := by
    unfold interior
    rw [hlev 0]
  have hkAtd : keyAt s d = keyAt s0 d := by
    rw [hsdef]
    by_cases hcond : s0.height < randomHeight rnd
    · simp only [if_pos hcond]
      rfl
    · simp only [if_neg hcond]
  have hdk : lexCmp (s0.storage.get keyOff) (keyAt s0 d) = 0 := by
    have hsgn := hL.1 (s0.storage.get keyOff) (s0.getKey d)
    rw [hdc, Int.sign_zero] at hsgn
    have hk : s0.storage.get (s0.getKey d) = keyAt s0 d := rfl
    rw [hk] at hsgn
    exact hsgn.symm
  have hdk2 : lexCmp (s.storage.get keyOff) (keyAt s d) = 0 := by
    rw [hstor, hkAtd]
    exact hdk
  have hnone0 := no_splice_of_dup s hS1 hSrt1 hL1 (s.storage.get keyOff)
    (s.storage.pfxOf (s.storage.get keyOff)) rfl d (by rw [hint0]; exact hd)
    hdk2
  rw [hstor] at hnone0
  have hres : insert s0 keyOff rnd = (s, some InsertError.recordExists) := by
    show (match findSplicesDown s (s0.storage.get keyOff)
        (s0.storage.pfxOf (s0.storage.get keyOff)) s.height s.head with
      | none => (s, some InsertError.recordExists)
      | some spl =>
        (spliceLevels (newNodeRec s (randomHeight rnd) keyOff
            (s0.storage.pfxOf (s0.storage.get keyOff))).2
          (newNodeRec s (randomHeight rnd) keyOff
            (s0.storage.pfxOf (s0.storage.get keyOff))).1 spl
          (randomHeight rnd), none)) = (s, some InsertError.recordExists)
    rw [hnone0]
  refine ⟨by rw [hres], by rw [hres]; exact hnodes, fun l => by
    rw [hres]
    exact hlev l⟩

/-- C2 witness: re-inserting the key [5] of the fixture list reports
ErrRecordExists and changes nothing. -/
theorem insert_duplicate_spec_witness :
    (∃ d ∈ interior testList3 0,
      testList3.storage.cmp (testList3.storage.get 5)
        (testList3.getKey d) = 0) ∧
    ((insert testList3 5 0).2 = some InsertError.recordExists ∧
     (insert testList3 5 0).1.nodes = testList3.nodes ∧
     (∀ l, levelList (insert testList3 5 0).1 l = levelList testList3 l)) :=
  ⟨by decide, insert_duplicate_spec testList3 testList3_inv.1
    testList3_inv.2.1
    (by rw [testList3_inv.2.2]; exact testStorage_lawful) 5 0 (by decide)⟩

/-- C3: for every lawful storage and every sequence of insertions of
pairwise-distinct keys, in any order, the level-0 walk runs from the head
sentinel through the live nodes to the tail sentinel, visiting them in
strictly ascending key order under Storage.Compare. -/
theorem insertAll_sorted_spec (st : StorageModel)
    (hL : StorageModel.Lawful st) (ops : List (ℕ × ℕ))
    (_hdist : (ops.map (fun op => st.get op.1)).Pairwise
      (fun a b => lexCmp a b ≠ 0)) :
    levelList (insertAll (newSkiplist st) ops) 0 =
      (insertAll (newSkiplist st) ops).head ::
        (interior (insertAll (newSkiplist st) ops) 0 ++
          [(insertAll (newSkiplist st) ops).tail]) ∧
    (interior (insertAll (newSkiplist st) ops) 0).Pairwise
      (fun a b => (insertAll (newSkiplist st) ops).storage.cmp
        (keyAt (insertAll (newSkiplist st) ops) a)
        ((insertAll (newSkiplist st) ops).getKey b) < 0) := by
  have h0 := newSkiplist_structOK st
  have h1 := newSkiplist_sortedOK st
  have h2 : StorageModel.Lawful (newSkiplist st).storage := by
    rw [(newSkiplist_fields st).2.2.2.1]
    exact hL
  obtain ⟨hS, hSrt, hstor⟩ := insertAll_inv (newSkiplist st) h0 h1 h2 ops
  have hstor2 : (insertAll (newSkiplist st) ops).storage = st :=
    hstor.trans (newSkiplist_fields st).2.2.2.1
  refine ⟨hS.shape 0 (by decide), ?_⟩
  refine (hSrt.sorted 0 (by decide)).imp_of_mem ?_
  intro a b ha hb hR
  rw [hstor2]
  have hsgn := hL.1 (keyAt (insertAll (newSkiplist st) ops) a)
    ((insertAll (newSkiplist st) ops).getKey b)
  have hkb : st.get ((insertAll (newSkiplist st) ops).getKey b) =
      keyAt (insertAll (newSkiplist st) ops) b := by
    unfold keyAt
    rw [hstor2]
  rw [hkb, hR] at hsgn
  exact Int.sign_eq_neg_one_iff_neg.mp hsgn

/-- C3 witness: inserting the keys [5], [3], [8] in that (unsorted) order
into a fresh list over the test storage yields the ascending level-0
walk. -/
theorem insertAll_sorted_spec_witness :
    StorageModel.Lawful testStorage ∧
    (([(5, 4294967295), (3, 1580030168), (8, 0)] : List (ℕ × ℕ)).map
      (fun op => testStorage.get op.1)).Pairwise
      (fun a b => lexCmp a b ≠ 0) ∧
    (levelList (insertAll (newSkiplist testStorage)
        [(5, 4294967295), (3, 1580030168), (8, 0)]) 0 =
      (insertAll (newSkiplist testStorage)
        [(5, 4294967295), (3, 1580030168), (8, 0)]).head ::
        (interior (insertAll (newSkiplist testStorage)
            [(5, 4294967295), (3, 1580030168), (8, 0)]) 0 ++
          [(insertAll (newSkiplist testStorage)
            [(5, 4294967295), (3, 1580030168), (8, 0)]).tail]) ∧
     (interior (insertAll (newSkiplist testStorage)
        [(5, 4294967295), (3, 1580030168), (8, 0)]) 0).Pairwise
       (fun a b => (insertAll (newSkiplist testStorage)
            [(5, 4294967295), (3, 1580030168), (8, 0)]).storage.cmp
         (keyAt (insertAll (newSkiplist testStorage)
            [(5, 4294967295), (3, 1580030168), (8, 0)]) a)
         ((insertAll (newSkiplist testStorage)
            [(5, 4294967295), (3, 1580030168), (8, 0)]).getKey b) < 0)) :=
  ⟨testStorage_lawful, by decide,
    insertAll_sorted_spec testStorage testStorage_lawful
      [(5, 4294967295), (3, 1580030168), (8, 0)] (by decide)⟩

/-- C8: after NewSkiplist the head and tail sentinels are allocated at the
full height of 20 link levels, at every level i < 20 the head's next link
is the tail and the tail's prev link is the head, and the height field is
1; after every subsequent sequence of insertions the two sentinels still
carry all 20 link levels and the level walk at every level i < 20 still
starts at the head and ends at the tail. -/
theorem newSkiplist_sentinels_spec (st : StorageModel)
    (ops : List (ℕ × ℕ)) :
    ((newSkiplist st).nodeAt (newSkiplist st).head).links.length =
      maxHeight ∧
    ((newSkiplist st).nodeAt (newSkiplist st).tail).links.length =
      maxHeight ∧
    (newSkiplist st).height = 1 ∧
    (∀ i < maxHeight,
      (newSkiplist st).getNext (newSkiplist st).head i =
        (newSkiplist st).tail ∧
      (newSkiplist st).getPrev (newSkiplist st).tail i =
        (newSkiplist st).head) ∧
    ((insertAll (newSkiplist st) ops).nodeAt
        (insertAll (newSkiplist st) ops).head).links.length = maxHeight ∧
    ((insertAll (newSkiplist st) ops).nodeAt
        (insertAll (newSkiplist st) ops).tail).links.length = maxHeight ∧
    (∀ i < maxHeight,
      (levelList (insertAll (newSkiplist st) ops) i).head? =
        some (insertAll (newSkiplist st) ops).head ∧
      (levelList (insertAll (newSkiplist st) ops) i).getLast? =
        some (insertAll (newSkiplist st) ops).tail) := by
  obtain ⟨hh, ht, hht, -, -⟩ := newSkiplist_fields st
  have hS2 := insertAll_structOK (newSkiplist st)
    (newSkiplist_structOK st) ops
  refine ⟨?_, ?_, hht, ?_, hS2.head_links, hS2.tail_links, ?_⟩
  · rw [hh]
    exact newSkiplist_linksLen st 0 (by omega)
  · rw [ht]
    exact newSkiplist_linksLen st 1 (by omega)
  · intro i hi
    rw [hh, ht]
    exact ⟨newSkiplist_getNext_head st i hi, newSkiplist_getPrev_tail st i hi⟩
  · intro i hi
    constructor
    · rw [hS2.shape i hi]
      rfl
    · exact levelList_getLast (insertAll (newSkiplist st) ops) hS2 i hi

end Batchskl
